import Mathlib

/-!
Verification of the polysh/gsh dispatcher engine core against its
natural-language specification.

The development shallowly embeds the Python sources:
  * `src/gsh/callbacks.py`         (callback registry)
  * `src/gsh/remote_dispatcher.py` (per-remote dispatcher state machine)

Python byte strings are modelled as `List Char` (`Str`).  The global mutable
state touched by the dispatcher (the callback table, the console output, the
registry bookkeeping calls, the raised fatal-exit flag) is threaded explicitly
through a machine record `M`.  Remote-side effects (the SIGKILL signal to the
transport child) are recorded as a boolean field.  Handlers registered in the
callback table are identified by an abstract value of type `α`; an invocation
of a handler is recorded as an event `(handler, argument)`.
-/

set_option maxRecDepth 4096

namespace Polysh

/-- Python byte strings (the sources are ASCII-only Python 2 `str`). -/
abbrev Str := List Char

/-- The newline byte. -/
def nl : Char := '\n'

/-- Boolean test that `pat` is a prefix of `l` (Python slice comparison). -/
def isPfxOf (pat l : Str) : Bool :=
  match pat, l with
  | [], _ => true
  | _ :: _, [] => false
  | p :: ps, c :: cs => p = c && isPfxOf ps cs

/-- `str.find(pat)` from Python: index of the first occurrence of `pat` in
`l`, `none` for `-1`. -/
def findSub (pat : Str) : Str → Option Nat
  | [] => if pat = [] then some 0 else none
  | c :: rest =>
    if isPfxOf pat (c :: rest) then some 0
    else (findSub pat rest).map (· + 1)

/-- Python `pat in l` (substring containment), as used by
`callbacks.contains` and the `in` tests in `handle_read`. -/
def containsSub (pat l : Str) : Bool := (findSub pat l).isSome

/-- `data.find('\n')`: index of the first newline, `none` for `-1`. -/
def findNl : Str → Option Nat
  | [] => none
  | c :: rest => if c = nl then some 0 else (findNl rest).map (· + 1)

/-- `data.rfind('\n')`: index of the last newline, `none` for `-1`. -/
def rfindNl : Str → Option Nat
  | [] => none
  | c :: rest =>
    match rfindNl rest with
    | some i => some (i + 1)
    | none => if c = nl then some 0 else none

/-! ### `src/gsh/callbacks.py`

`RANDOM_LENGTH = 20`; `GSH_COMMON_PREFIX = 'gsh-' + random_string() + ','`.
The random strings drawn by `random_string()` are modelled as parameters
(`r0` for the process-lifetime prefix, `r1`/`r2` per registration); the only
fact the code relies on is their length.  The table `GSH_CALLBACKS` maps a
trigger to `(function, continous)`; handler functions are abstract values of a
type `α` and `process` reports the invocation it performs as an
`Option (α × Str)` (handler, argument) instead of running a side effect. -/
def RANDOM_LENGTH : Nat := 20

/-- `GSH_COMMON_PREFIX = 'gsh-' + r0 + ','`. -/
def GSH_COMMON_PREFIX (r0 : Str) : Str := "gsh-".toList ++ r0 ++ [',']

/-- The table `GSH_CALLBACKS`, an association list keyed by trigger. -/
abbrev CbTable (α : Type) : Type := List (Str × α × Bool)

/-- `GSH_CALLBACKS.get(trigger, default)[...]` without the default. -/
def lookupCb {α : Type} (t : Str) : CbTable α → Option (α × Bool)
  | [] => none
  | (k, v) :: rest => if k = t then some v else lookupCb t rest

/-- `del GSH_CALLBACKS[trigger]`. -/
def eraseCb {α : Type} (t : Str) : CbTable α → CbTable α
  | [] => []
  | (k, v) :: rest => if k = t then eraseCb t rest else (k, v) :: eraseCb t rest

/-- `GSH_CALLBACKS[trigger] = (function, continous)` (dict overwrite). -/
def insertCb {α : Type} (t : Str) (v : α × Bool) (tbl : CbTable α) : CbTable α :=
  (t, v) :: eraseCb t tbl

/-- `callbacks.add(function, continous)` with the two random strings drawn by
`random_string()` made explicit.  Returns
`(GSH_COMMON_PREFIX + trigger1, trigger2)` and the updated table. -/
def add {α : Type} (cp r1 r2 : Str) (f : α) (continous : Bool)
    (tbl : CbTable α) : Str × Str × CbTable α :=
  let trigger1 := r1 ++ ['/']
  let trigger2 := r2 ++ ['.']
  let trigger := trigger1 ++ trigger2
  (cp ++ trigger1, trigger2, insertCb trigger (f, continous) tbl)

/-- `callbacks.contains(data)`: `GSH_COMMON_PREFIX in data`. -/
def contains (cp data : Str) : Bool := containsSub cp data

/-- `callbacks.any_in(data)`, called by `handle_read_fast_case`.
Modelled from the spec: `any_in(buffer) → bool` is the "cheap presence check
for `COMMON_PREFIX` as a substring" (§4.2); the source file defines exactly
this predicate under the name `contains` (`remote_dispatcher.py` refers to it
as `callbacks.any_in`, a name this snapshot of `callbacks.py` lacks). -/
def any_in (cp data : Str) : Bool := contains cp data

/-- `callbacks.process(line)`.  Returns the Python return value, the
invocation `callback(line[trigger_end:])` it performs (if any), and the
resulting table. -/
def process {α : Type} (cp line : Str) (tbl : CbTable α) :
    Bool × Option (α × Str) × CbTable α :=
  match findSub cp line with
  | none => (false, none, tbl)
  | some start =>
    let trigger_start := start + cp.length
    let trigger_length := RANDOM_LENGTH + 1 + RANDOM_LENGTH + 1
    let trigger_end := trigger_start + trigger_length
    let trigger := (line.drop trigger_start).take trigger_length
    if trigger.length ≠ trigger_length then (false, none, tbl)
    else
      match lookupCb trigger tbl with
      | none => (false, none, tbl)
      | some (f, continous) =>
        let tbl' := if continous then tbl else eraseCb trigger tbl
        (true, some (f, line.drop trigger_end), tbl')

/-- C1 counterexample input: concrete random strings of length 20. -/
def rA : Str := List.replicate RANDOM_LENGTH 'a'

def rB : Str := List.replicate RANDOM_LENGTH 'b'

def rC : Str := List.replicate RANDOM_LENGTH 'c'

def cpA : Str := GSH_COMMON_PREFIX rA

/-! ### `remote_dispatcher.print_lines`

`print_lines` is (lines 172-184):
```
lines = lines.strip('\n')
while True:
    no_empty_lines = lines.replace('\n\n', '\n')
    if len(no_empty_lines) == len(lines):
        break
    lines = no_empty_lines
if not lines:
    return
indent = max_display_name_length - len(self.display_name)
prefix = self.display_name + indent * ' ' + ': '
console_output(prefix + lines.replace('\n', '\n' + prefix) + '\n')
```
We model the text written to `console_output` (`[]` when nothing is
printed). -/
/-- Leading-newline removal (`str.strip`'s left half). -/
def dropNl (l : Str) : Str := l.dropWhile (· == nl)

/-- Trailing-newline removal (`str.strip`'s right half). -/
def stripTrailNl (l : Str) : Str := (l.reverse.dropWhile (· == nl)).reverse

/-- `lines.strip('\n')`: Python strips every leading and trailing newline. -/
def stripNl (l : Str) : Str := stripTrailNl (dropNl l)

/-- One pass of `lines.replace('\n\n', '\n')`: left-to-right, non-overlapping. -/
def replaceNlNl : Str → Str
  | c1 :: c2 :: rest =>
    if c1 = nl ∧ c2 = nl then nl :: replaceNlNl rest
    else c1 :: replaceNlNl (c2 :: rest)
  | l => l

/-- The `while True` fixpoint loop of `print_lines`.  Each pass that does not
break strictly shrinks the string, so `l.length + 1` units of fuel always
reach the break. -/
def collapseLoopAux : Nat → Str → Str
  | 0, l => l
  | fuel + 1, l =>
    let r := replaceNlNl l
    if r.length = l.length then l else collapseLoopAux fuel r

def collapseLoop (l : Str) : Str := collapseLoopAux (l.length + 1) l

/-- `s.replace('\n', '\n' + pfx)`. -/
def replaceNlWith (pfx : Str) : Str → Str
  | [] => []
  | c :: rest =>
    if c = nl then nl :: (pfx ++ replaceNlWith pfx rest)
    else c :: replaceNlWith pfx rest

/-- `prefix = display_name + indent * ' ' + ': '` where
`indent = max_display_name_length - len(display_name)` (a negative Python
`int` repeats the space zero times, exactly like `Nat` subtraction). -/
def mkPfx (mdnl : Nat) (name : Str) : Str :=
  name ++ List.replicate (mdnl - name.length) ' ' ++ [':', ' ']

/-- The bytes `print_lines(lines0)` hands to `console_output`. -/
def printLinesOut (mdnl : Nat) (name : Str) (lines0 : Str) : Str :=
  let lines1 := stripNl lines0
  let lines2 := collapseLoop lines1
  if lines2 = [] then []
  else
    let pfx := mkPfx mdnl name
    pfx ++ replaceNlWith pfx lines2 ++ [nl]

/-- What `print_lines` emits for a single newline-free body (`[]` when the
body is empty).  Proof-side normal form, not part of the source. -/
def emitOne (pfx b : Str) : Str := if b = [] then [] else pfx ++ b ++ [nl]

/-- Newline-run squeezing: the semantic fixpoint of the collapse loop.  The
flag records whether the previous kept character was a newline. -/
def squeeze : Bool → Str → Str
  | _, [] => []
  | prevNl, c :: rest =>
    if c = nl then
      if prevNl then squeeze true rest else nl :: squeeze true rest
    else c :: squeeze false rest

/-- Split at newlines (used only to state the C5 claim/amended models). -/
def splitOnNl : Str → List Str
  | [] => [[]]
  | c :: rest =>
    if c = nl then [] :: splitOnNl rest
    else
      match splitOnNl rest with
      | [] => [[c]]
      | h :: t => (c :: h) :: t

/-- "Strip a trailing newline (and only a trailing newline)" — the literal
reading of claim C5. -/
def stripOneTrailingNl (t : Str) : Str :=
  match t.getLast? with
  | some c => if c = nl then t.dropLast else t
  | none => t

/-- `print_lines` as claim C5 words it: strip one trailing newline, collapse
blank-line runs to a fixpoint, emit every remaining line prefixed, nothing
when empty after stripping. -/
def printLinesClaimC5 (mdnl : Nat) (name : Str) (text : Str) : Str :=
  let t1 := stripOneTrailingNl text
  if t1 = [] then []
  else ((splitOnNl (collapseLoop t1)).map
    (fun l => mkPfx mdnl name ++ l ++ [nl])).flatten

/-- The amended C5 model: identical to `printLinesClaimC5` except that the
stripping step removes every leading and trailing newline, as
`str.strip('\n')` does. -/
def printLinesAmendedC5 (mdnl : Nat) (name : Str) (text : Str) : Str :=
  let t1 := stripNl text
  if t1 = [] then []
  else ((splitOnNl (collapseLoop t1)).map
    (fun l => mkPfx mdnl name ++ l ++ [nl])).flatten

/-! ### `src/gsh/remote_dispatcher.py` — the dispatcher machine

The dispatcher's methods mutate the object, the global callback table, the
console, the registry bookkeeping, and may raise `asyncore.ExitNow`; all of
that is threaded through a machine record `M`.  Not modelled: debug tracing
(`self.debug` only prints `[dbg]` lines), the `nr_handle_read` counter, and
the fields never read by the modelled methods (`hostname`, `pid`,
`term_size`, `command`). -/
/-- `STATE_NOT_STARTED, STATE_IDLE, STATE_RUNNING, STATE_TERMINATED`. -/
inductive DState : Type
  | not_started
  | idle
  | running
  | terminated
deriving DecidableEq

/-- Per-dispatcher attributes.  `transport_killed` records that
`os.kill(self.pid, signal.SIGKILL)` has been issued at least once (a repeat
signal to the dead child lands in the `except OSError` handler, so only this
fact is observable). -/
structure RD : Type where
  active : Bool
  enabled : Bool
  state : DState
  read_buffer : Str
  write_buffer : Str
  read_in_state_not_started : Str
  display_name : Str
  init_string : Str
  init_string_sent : Bool
  transport_killed : Bool
deriving DecidableEq

/-- Ambient configuration: `options.interactive`, `options.abort_error`, the
value of `GSH_COMMON_PREFIX`, and the registry's `max_display_name_length`
read by `print_lines`.  Modelled from the spec: the registry module
(`gsh/dispatchers.py`) is not under `src/`; §4.3.4 and §4.4 make
`max_display_name_length` an ambient value fed to the padding, updated via
`update_max_display_name_length`, whose calls the machine records as signed
deltas (§4.4: "the reference uses a signed-delta scheme"). -/
structure Env : Type where
  interactive : Bool
  abort_error : Bool
  mdnl : Nat
  cp : Str
deriving DecidableEq

/-- One dispatcher plus the process-global state its methods touch. -/
structure M (α : Type) : Type where
  d : RD
  cbs : CbTable α
  out : Str
  events : List (α × Str)
  deltas : List Int
  raised : Bool
deriving DecidableEq

/-- `set_enabled` (lines 84-94): flip the flag; in interactive mode report
`len(display_name)` (negated when disabling) to
`update_max_display_name_length`. -/
def set_enabled {α : Type} (env : Env) (enabled : Bool) (m : M α) : M α :=
  let d' := { m.d with enabled := enabled }
  if env.interactive then
    let l : Int := if enabled then (m.d.display_name.length : Int)
                   else -(m.d.display_name.length : Int)
    { m with d := d', deltas := m.deltas ++ [l] }
  else { m with d := d' }

/-- `self.print_lines(text)` acting on the machine. -/
def printLinesM {α : Type} (env : Env) (text : Str) (m : M α) : M α :=
  { m with out := m.out ++ printLinesOut env.mdnl m.d.display_name text }

/-- `disconnect` (lines 105-120): signal the transport child, clear both
buffers, deactivate, `set_enabled(False)`, replay the startup buffer through
`print_lines`, then raise `asyncore.ExitNow(1)` iff `abort_error` is set and
`state is STATE_NOT_STARTED`.  The state field itself is never written. -/
def disconnect {α : Type} (env : Env) (m : M α) : M α :=
  let d1 : RD := { m.d with
    transport_killed := true
    read_buffer := []
    write_buffer := []
    active := false }
  let m1 : M α := { m with d := d1 }
  let m2 := set_enabled env false m1
  let m3 :=
    if m2.d.read_in_state_not_started ≠ [] then
      let m' := printLinesM env m2.d.read_in_state_not_started m2
      { m' with d := { m'.d with read_in_state_not_started := [] } }
    else m2
  if env.abort_error ∧ m3.d.state = DState.not_started then
    { m3 with raised := true }
  else m3

/-- `dispatch_write` (lines 293-297).  The underlying buffer append is
modelled from the spec: `buffered_dispatcher.dispatch_write` (§4.1) is
"append-only; never blocks".  The Bool is `true` when Python returns `True`
and `false` for the implicit `None` (the claim's "non-true result"). -/
def dispatch_write (d : RD) (buf : Str) : RD × Bool :=
  if d.active ∧ d.enabled then
    ({ d with write_buffer := d.write_buffer ++ buf }, true)
  else (d, false)

/-- Fatal startup substrings and diagnostics of `handle_read` (226-238). -/
def AUTH_SUB : Str := "The authenticity of host".toList

def CHANGED_SUB : Str := "REMOTE HOST IDENTIFICATION HAS CHANGED".toList

def CLOSING_MSG : Str := " Closing connection.".toList

def CHANGED_MSG : Str := "Remote host identification has changed.".toList

def CONSIDER_MSG : Str := " Consider manually connecting or using ssh-keyscan.".toList

/-- `handle_read_fast_case(data)` (lines 186-199); `none` is Python's `False`
return, `some` carries the machine after the buffer split and the one
`print_lines` call. -/
def handle_read_fast_case {α : Type} (env : Env) (data : Str) (m : M α) :
    Option (M α) :=
  if m.d.state ≠ DState.running ∨ any_in env.cp data then none
  else
    match rfindNl data with
    | none => none
    | some last_nl =>
      let d1 : RD := { m.d with read_buffer := data.drop (last_nl + 1) }
      some (printLinesM env (data.take last_nl) { m with d := d1 })

/-- The body of one loop iteration (lines 221-238): run `callbacks.process`
over the line (recording and applying the invocation it makes, if any) and,
when it returns `False`, dispatch on the state: print in `idle`/`running`,
accumulate into `read_in_state_not_started` in `not_started` with the two
host-key checks (the first of which disconnects and may raise). -/
def handle_line {α : Type} (env : Env) (hcb : α → Str → M α → M α) (line : Str)
    (m : M α) : M α :=
  let pr := process env.cp line m.cbs
  let m1 : M α := { m with cbs := pr.2.2, events := m.events ++ pr.2.1.toList }
  let m2 := match pr.2.1 with
    | some (f, payload) => hcb f payload m1
    | none => m1
  if pr.1 then m2
  else if m2.d.state = DState.idle ∨ m2.d.state = DState.running then
    printLinesM env line m2
  else if m2.d.state = DState.not_started then
    let d' : RD :=
      { m2.d with
        read_in_state_not_started := m2.d.read_in_state_not_started ++ line }
    let m' : M α := { m2 with d := d' }
    if containsSub AUTH_SUB line then
      let m'' := disconnect env m'
      if m''.raised then m''
      else printLinesM env (stripNl line ++ CLOSING_MSG ++ CONSIDER_MSG) m''
    else if containsSub CHANGED_SUB line then
      printLinesM env (CHANGED_MSG ++ CONSIDER_MSG) m'
    else m'
  else m2

/-- The `while lf_pos >= 0` loop of `handle_read` (lines 219-244).  `lf` is
`lf_pos` (`none` for `-1`).  `hcb` applies a handler invocation performed by
`callbacks.process` (the source's handlers — `seen_prompt_cb`,
`change_name`, … — mutate the dispatcher; the loop is parametric in that
effect).  `useFast = true` keeps the mid-loop `handle_read_fast_case` retry
exactly as in the source; `false` yields the pure per-line slow path the
fast/slow-equivalence spec sentence compares against.  The fuel only makes
the recursion total; the Python loop terminates because the buffer shrinks.
The result flag is `true` iff the loop was left early (the fast case's
`return`, or the `asyncore.ExitNow` raised inside `disconnect`), in which
case `handle_read`'s post-loop block is skipped. -/
def slow_loop {α : Type} (env : Env) (hcb : α → Str → M α → M α) (useFast : Bool) :
    Nat → Option Nat → M α → Option (M α × Bool)
  | _, none, m => some (m, false)
  | 0, some _, _ => none
  | fuel + 1, some lf, m =>
    let m3 := handle_line env hcb (m.d.read_buffer.take (lf + 1)) m
    if m3.raised then some (m3, true)
    else
      let d4 : RD := { m3.d with read_buffer := m3.d.read_buffer.drop (lf + 1) }
      let m4 : M α := { m3 with d := d4 }
      if useFast then
        match handle_read_fast_case env m4.d.read_buffer m4 with
        | some m5 => some (m5, true)
        | none => slow_loop env hcb useFast fuel (findNl m4.d.read_buffer) m4
      else slow_loop env hcb useFast fuel (findNl m4.d.read_buffer) m4

/-- `handle_read` (lines 201-247).  `new_data` is the chunk the underlying
`buffered_dispatcher.handle_read` appends to `read_buffer` and returns;
modelled from the spec (§4.1: one non-blocking read, append, return the
bytes just read).  `none` means the loop fuel ran out. -/
def handle_read {α : Type} (env : Env) (hcb : α → Str → M α → M α) (fuel : Nat)
    (new_data : Str) (m : M α) : Option (M α) :=
  if ¬ m.d.active then some m
  else
    let d0 : RD := { m.d with read_buffer := m.d.read_buffer ++ new_data }
    let m0 : M α := { m with d := d0 }
    match handle_read_fast_case env m0.d.read_buffer m0 with
    | some m1 => some m1
    | none =>
      let lf0 : Option Nat := (findNl new_data).map
        (· + (m0.d.read_buffer.length - new_data.length))
      match slow_loop env hcb true fuel lf0 m0 with
      | none => none
      | some (m1, early) =>
        if early then some m1
        else if m1.d.state = DState.not_started ∧ ¬ m1.d.init_string_sent then
          let dw := dispatch_write m1.d m1.d.init_string
          some { m1 with d := { dw.1 with init_string_sent := true } }
        else some m1

/-- The trailing partial line of a buffer: everything after the last newline
(the whole buffer when it has none). -/
def nlResidue (data : Str) : Str :=
  match rfindNl data with
  | some i => data.drop (i + 1)
  | none => data

/-- The complete lines of a buffer: everything up to and including the last
newline (empty when there is none). -/
def nlChunk (data : Str) : Str :=
  match rfindNl data with
  | some i => data.take (i + 1)
  | none => []

/-- Handler identities for the registrations performed by
`remote_dispatcher` (the handler bodies mutate the dispatcher and are
applied through the loop's handler parameter where a claim needs them). -/
inductive HandlerId : Type
  | seen_prompt_cb
  | change_name
  | real_prompt_sink
deriving DecidableEq

/-- `set_prompt` (lines 150-159) with the callback registration written as
the two-argument `callbacks.add` of `src/gsh/callbacks.py` demands — i.e.
without the extra `'prompt'` label the source call site passes (the
three-argument call `callbacks.add('prompt', self.seen_prompt_cb, True)`
raises `TypeError` against `def add(function, continous)`; claim C3).  The
command line is `'RPS1=;RPROMPT=;TERM=ansi;unset HISTFILE;' +
'PS1="%s""%s\n"\n' % (prompt1, prompt2)`. -/
def set_prompt (cp r1 r2 : Str) (cbs : CbTable HandlerId) :
    Str × CbTable HandlerId :=
  let res := add cp r1 r2 HandlerId.seen_prompt_cb true cbs
  ("RPS1=;RPROMPT=;TERM=ansi;unset HISTFILE;PS1=\"".toList
     ++ res.1 ++ "\"\"".toList ++ res.2.1 ++ [nl] ++ "\"".toList ++ [nl],
   res.2.2)

/-- Concrete dispatcher records for witnesses and counterexamples. -/
def dOn : RD :=
  { active := true
    enabled := true
    state := DState.idle
    read_buffer := []
    write_buffer := []
    read_in_state_not_started := []
    display_name := ['h']
    init_string := []
    init_string_sent := true
    transport_killed := false }

def dOff : RD := { dOn with enabled := false }

def envNI : Env := { interactive := false, abort_error := false, mdnl := 1, cp := cpA }

def envI : Env := { interactive := true, abort_error := false, mdnl := 1, cp := cpA }

def mRun : M Nat :=
  { d := { dOn with state := DState.running }
    cbs := []
    out := []
    events := []
    deltas := []
    raised := false }

/-- The identity handler application, used by concrete runs. -/
def hcb0 : Nat → Str → M Nat → M Nat := fun _ _ mm => mm

/-- The fast-path precondition machine for the C2 witness: a running
dispatcher whose buffer holds one complete line and a partial one. -/
def mC2 : M Nat :=
  { mRun with d := { mRun.d with read_buffer := ['a', nl, 'b'] } }

/-- A freshly connected dispatcher still in `NotStarted`, for the C8
witness. -/
def mNS : M Nat := { mRun with d := { mRun.d with state := DState.not_started } }

/-- A `NotStarted` dispatcher holding the startup line `"x\n"`, for the C8
counterexample. -/
def mNS8 : M Nat :=
  { mRun with d := { mRun.d with
      state := DState.not_started
      read_in_state_not_started := ['x', nl] } }

theorem isPfxOf_iff (pat l : Str) : isPfxOf pat l = true ↔ pat <+: l := by
  induction pat generalizing l with
  | nil => simp [isPfxOf]
  | cons p ps ih =>
    cases l with
    | nil => simp [isPfxOf]
    | cons c cs =>
      simp only [isPfxOf, Bool.and_eq_true, decide_eq_true_eq, ih, List.cons_prefix_cons]

theorem findSub_eq_none_iff (pat l : Str) : findSub pat l = none ↔ ¬ pat <:+: l := by
  induction l with
  | nil =>
    by_cases h : pat = [] <;> simp [findSub, h]
  | cons c rest ih =>
    cases h : isPfxOf pat (c :: rest) with
    | true =>
      have hp : pat <+: c :: rest := (isPfxOf_iff _ _).mp h
      simp [findSub, h, hp.isInfix]
    | false =>
      have hp : ¬ pat <+: c :: rest := fun hp => by
        rw [← isPfxOf_iff, h] at hp; cases hp
      rw [List.infix_cons_iff]
      simp only [findSub, h, Bool.false_eq_true, if_false, Option.map_eq_none', ih]
      tauto

theorem containsSub_false_iff (pat l : Str) :
    containsSub pat l = false ↔ ¬ pat <:+: l := by
  rw [← findSub_eq_none_iff]
  unfold containsSub
  cases findSub pat l <;> simp

theorem containsSub_false_of_take (pat l : Str) (n : Nat)
    (h : containsSub pat l = false) : containsSub pat (l.take n) = false := by
  rw [containsSub_false_iff] at h ⊢
  exact fun hinf => h (hinf.trans (List.take_prefix n l).isInfix)

theorem containsSub_false_of_drop (pat l : Str) (n : Nat)
    (h : containsSub pat l = false) : containsSub pat (l.drop n) = false := by
  rw [containsSub_false_iff] at h ⊢
  exact fun hinf => h (hinf.trans (List.drop_suffix n l).isInfix)

theorem findNl_eq_none_iff (l : Str) : findNl l = none ↔ nl ∉ l := by
  induction l with
  | nil => simp [findNl]
  | cons c rest ih =>
    by_cases h : c = nl <;> simp [findNl, h, ih, eq_comm (a := c)]
    tauto

theorem rfindNl_eq_none_iff (l : Str) : rfindNl l = none ↔ nl ∉ l := by
  induction l with
  | nil => simp [rfindNl]
  | cons c rest ih =>
    cases hr : rfindNl rest with
    | some i => simp only [rfindNl, hr]; simp [← ih, hr]
    | none =>
      by_cases h : c = nl <;> simp [rfindNl, hr, h, ← ih, eq_comm (a := c)]
      tauto

/-- Decomposition of a string at its first newline. -/
theorem findNl_eq_some (l : Str) (i : Nat) (h : findNl l = some i) :
    l = l.take i ++ nl :: l.drop (i + 1) ∧ nl ∉ l.take i := by
  induction l generalizing i with
  | nil => simp [findNl] at h
  | cons c rest ih =>
    by_cases hc : c = nl
    · rw [findNl, if_pos hc] at h
      cases h
      simp [hc]
    · rw [findNl, if_neg hc] at h
      cases hr : findNl rest with
      | none => rw [hr] at h; cases h
      | some j =>
        rw [hr] at h
        obtain rfl : j + 1 = i := by simpa using h
        obtain ⟨h1, h2⟩ := ih j hr
        constructor
        · simpa [List.take, List.drop] using congrArg (c :: ·) h1
        · simp [List.take, h2, hc, Ne.symm hc]

theorem rfindNl_append (x y : Str) :
    rfindNl (x ++ y) =
      match rfindNl y with
      | some i => some (x.length + i)
      | none => rfindNl x := by
  induction x with
  | nil =>
    simp only [List.nil_append, List.length_nil]
    cases hy : rfindNl y <;> simp [rfindNl]
  | cons c rest ih =>
    have hcons : rfindNl ((c :: rest) ++ y) =
        match rfindNl (rest ++ y) with
        | some i => some (i + 1)
        | none => if c = nl then some 0 else none := rfl
    rw [hcons, ih]
    cases hy : rfindNl y with
    | some i =>
      show some (rest.length + i + 1) = some ((c :: rest).length + i)
      exact congrArg some (by simp only [List.length_cons]; omega)
    | none =>
      show (match rfindNl rest with
            | some i => some (i + 1)
            | none => if c = nl then some 0 else none) = rfindNl (c :: rest)
      exact rfl

/-- Everything after the last newline is newline-free. -/
theorem rfindNl_drop (l : Str) (i : Nat) (h : rfindNl l = some i) :
    nl ∉ l.drop (i + 1) := by
  induction l generalizing i with
  | nil => simp [rfindNl] at h
  | cons c rest ih =>
    cases hr : rfindNl rest with
    | some j =>
      simp only [rfindNl, hr] at h
      cases h
      simpa using ih j hr
    | none =>
      simp only [rfindNl, hr] at h
      by_cases hc : c = nl
      · simp only [hc, if_pos] at h
        cases h
        simpa [List.drop] using (rfindNl_eq_none_iff rest).mp hr
      · simp [hc] at h

theorem lookupCb_insert {α : Type} (t : Str) (v : α × Bool) (tbl : CbTable α) :
    lookupCb t (insertCb t v tbl) = some v := by
  simp [insertCb, lookupCb]

theorem lookupCb_erase {α : Type} (t : Str) (tbl : CbTable α) :
    lookupCb t (eraseCb t tbl) = none := by
  induction tbl with
  | nil => rfl
  | cons kv rest ih =>
    obtain ⟨k, v⟩ := kv
    by_cases h : k = t
    · simpa [eraseCb, h] using ih
    · simpa [eraseCb, lookupCb, h] using ih

theorem process_of_findSub_none {α : Type} (cp line : Str) (tbl : CbTable α)
    (h : findSub cp line = none) : process cp line tbl = (false, none, tbl) := by
  unfold process
  rw [h]

theorem isPfxOf_append (x y : Str) : isPfxOf x (x ++ y) = true :=
  (isPfxOf_iff _ _).mpr (List.prefix_append x y)

theorem findSub_self_append (cp rest : Str) : findSub cp (cp ++ rest) = some 0 := by
  cases cp with
  | nil => cases rest <;> simp [findSub, isPfxOf]
  | cons p ps =>
    show findSub (p :: ps) ((p :: ps) ++ rest) = some 0
    have h := isPfxOf_append (p :: ps) rest
    rw [List.cons_append] at h ⊢
    simp [findSub, h]

/-- Evaluation of `process` on a line of the exact shape produced by playing
back the two halves returned by `add`: common prefix, a well-formed trigger,
then the rest of the line. -/
theorem process_marker_line {α : Type} (cp r1 r2 tail : Str) (tbl : CbTable α)
    (h1 : r1.length = RANDOM_LENGTH) (h2 : r2.length = RANDOM_LENGTH) :
    process cp (cp ++ ((r1 ++ ['/'] ++ (r2 ++ ['.'])) ++ tail)) tbl =
      (match lookupCb (r1 ++ ['/'] ++ (r2 ++ ['.'])) tbl with
       | none => (false, none, tbl)
       | some (f, continous) =>
         (true, some (f, tail),
          if continous then tbl else eraseCb (r1 ++ ['/'] ++ (r2 ++ ['.'])) tbl)) := by
  have hT : (r1 ++ ['/'] ++ (r2 ++ ['.'])).length =
      RANDOM_LENGTH + 1 + RANDOM_LENGTH + 1 := by
    simp [List.length_append, h1, h2]
    omega
  unfold process
  rw [findSub_self_append]
  have hdrop1 : (cp ++ ((r1 ++ ['/'] ++ (r2 ++ ['.'])) ++ tail)).drop (0 + cp.length)
      = (r1 ++ ['/'] ++ (r2 ++ ['.'])) ++ tail := by
    rw [Nat.zero_add]
    exact List.drop_left cp _
  have htake : ((r1 ++ ['/'] ++ (r2 ++ ['.'])) ++ tail).take
      (RANDOM_LENGTH + 1 + RANDOM_LENGTH + 1) = r1 ++ ['/'] ++ (r2 ++ ['.']) := by
    rw [← hT]
    exact List.take_left _ _
  have hdrop2 : (cp ++ ((r1 ++ ['/'] ++ (r2 ++ ['.'])) ++ tail)).drop
      (0 + cp.length + (RANDOM_LENGTH + 1 + RANDOM_LENGTH + 1)) = tail := by
    have h := List.drop_left (cp ++ (r1 ++ ['/'] ++ (r2 ++ ['.']))) tail
    rw [List.length_append, hT, List.append_assoc] at h
    rw [Nat.zero_add]
    exact h
  simp only [hdrop1, htake, hdrop2, hT]
  cases lookupCb (r1 ++ ['/'] ++ (r2 ++ ['.'])) tbl with
  | none => simp
  | some v => obtain ⟨f, continous⟩ := v; simp

/-- `eraseCb` of the key of a front insertion erases the whole key. -/
theorem eraseCb_idem_cons {α : Type} (t : Str) (v : α × Bool) (tbl : CbTable α) :
    lookupCb t (eraseCb t ((t, v) :: eraseCb t tbl)) = none := by
  simp [eraseCb, lookupCb_erase]

/-- C1, as stated, is false: `process` passes `line[trigger_end:]` to the
handler, which on the line `prefix_half + suffix_half + payload + "\n"` is
`payload + "\n"`, not `payload`.  Concretely, for the payload `"x"` the single
recorded invocation carries the argument `"x\n"`, which differs from `"x"`. -/
theorem claim_C1_counterexample :
    (process cpA
        ((add cpA rB rC (0 : Nat) true []).1 ++ (add cpA rB rC (0 : Nat) true []).2.1
          ++ ['x'] ++ [nl])
        (add cpA rB rC (0 : Nat) true []).2.2).2.1 = some (0, ['x', nl]) ∧
      (['x', nl] : Str) ≠ ['x'] := by
  constructor
  · decide
  · decide

/-- C1 (amended): registering `(f, continous)` via `add` and calling `process`
on `prefix_half + suffix_half + payload + "\n"` returns true and invokes `f`
exactly once with argument `payload + "\n"` (the rest of the line after the
trigger, including the newline), deleting the entry iff not continuous; a
second `process` on the same line invokes the handler again iff `continous`. -/
theorem claim_C1_amended {α : Type} (cp r1 r2 p1 p2 : Str) (f : α) (continous : Bool)
    (tbl tbl1 : CbTable α) (payload line : Str)
    (h1 : r1.length = RANDOM_LENGTH) (h2 : r2.length = RANDOM_LENGTH)
    (hadd : add cp r1 r2 f continous tbl = (p1, p2, tbl1))
    (hline : line = p1 ++ p2 ++ payload ++ [nl]) :
    process cp line tbl1 =
      (true, some (f, payload ++ [nl]),
        if continous then tbl1 else eraseCb (r1 ++ ['/'] ++ (r2 ++ ['.'])) tbl1) ∧
    (continous = true →
      process cp line (process cp line tbl1).2.2 = process cp line tbl1) ∧
    (continous = false →
      process cp line (process cp line tbl1).2.2 =
        (false, none, (process cp line tbl1).2.2)) := by
  have hp1 : p1 = cp ++ (r1 ++ ['/']) := by
    have := congrArg Prod.fst hadd
    simpa [add] using this.symm
  have hp2 : p2 = r2 ++ ['.'] := by
    have := congrArg (fun q => q.2.1) hadd
    simpa [add] using this.symm
  have htbl1 : tbl1 = insertCb (r1 ++ ['/'] ++ (r2 ++ ['.'])) (f, continous) tbl := by
    have := congrArg (fun q => q.2.2) hadd
    simpa [add, List.append_assoc] using this.symm
  have hline' : line = cp ++ ((r1 ++ ['/'] ++ (r2 ++ ['.'])) ++ (payload ++ [nl])) := by
    rw [hline, hp1, hp2]
    simp [List.append_assoc]
  have hfirst : process cp line tbl1 =
      (true, some (f, payload ++ [nl]),
        if continous then tbl1 else eraseCb (r1 ++ ['/'] ++ (r2 ++ ['.'])) tbl1) := by
    rw [hline', process_marker_line cp r1 r2 (payload ++ [nl]) tbl1 h1 h2, htbl1,
      lookupCb_insert]
  refine ⟨hfirst, ?_, ?_⟩
  · intro hc
    have h22 : (process cp line tbl1).2.2 = tbl1 := by
      rw [hfirst, hc]
      simp
    rw [h22]
  · intro hc
    have h22 : (process cp line tbl1).2.2 =
        eraseCb (r1 ++ ['/'] ++ (r2 ++ ['.'])) tbl1 := by
      rw [hfirst, hc]
      simp
    rw [h22]
    rw [hline', process_marker_line cp r1 r2 (payload ++ [nl]) _ h1 h2]
    rw [htbl1, insertCb]
    rw [eraseCb_idem_cons]

/-- C1 witness: the amended round-trip theorem applied to a concrete one-shot
(`continous = false`) registration with payload `"x"`. -/
theorem claim_C1_witness :
    process cpA (cpA ++ (rB ++ ['/']) ++ (rC ++ ['.']) ++ ['x'] ++ [nl])
        (insertCb (rB ++ ['/'] ++ (rC ++ ['.'])) ((0 : Nat), false) []) =
      (true, some ((0 : Nat), ['x'] ++ [nl]),
        eraseCb (rB ++ ['/'] ++ (rC ++ ['.']))
          (insertCb (rB ++ ['/'] ++ (rC ++ ['.'])) ((0 : Nat), false) [])) := by
  have h := claim_C1_amended cpA rB rC (cpA ++ (rB ++ ['/'])) (rC ++ ['.']) (0 : Nat)
      false [] (insertCb (rB ++ ['/'] ++ (rC ++ ['.'])) ((0 : Nat), false) [])
      ['x'] (cpA ++ (rB ++ ['/']) ++ (rC ++ ['.']) ++ ['x'] ++ [nl])
      (by decide) (by decide) rfl rfl
  rw [h.1]
  simp

/-- C7: if `COMMON_PREFIX` occurs in the line but fewer than `2L+2 = 42` bytes
follow the occurrence, `process` returns false, invokes no handler, and leaves
the table unchanged. -/
theorem claim_C7_truncated_trigger {α : Type} (cp line : Str) (tbl : CbTable α)
    (start : Nat) (hfind : findSub cp line = some start)
    (hshort : line.length <
      start + cp.length + (RANDOM_LENGTH + 1 + RANDOM_LENGTH + 1)) :
    process cp line tbl = (false, none, tbl) := by
  have h42 : RANDOM_LENGTH + 1 + RANDOM_LENGTH + 1 = 42 := rfl
  rw [h42] at hshort
  have hlen : ((line.drop (start + cp.length)).take
      (RANDOM_LENGTH + 1 + RANDOM_LENGTH + 1)).length ≠
        RANDOM_LENGTH + 1 + RANDOM_LENGTH + 1 := by
    rw [h42, List.length_take, List.length_drop]
    omega
  unfold process
  rw [hfind]
  simp [hlen]
  intro hcontra
  rw [h42] at hcontra
  exfalso
  omega

/-- C7 witness: a line that is the bare common prefix (0 bytes follow it). -/
theorem claim_C7_witness :
    findSub cpA cpA = some 0 ∧
    cpA.length < 0 + cpA.length + (RANDOM_LENGTH + 1 + RANDOM_LENGTH + 1) ∧
    process cpA cpA ([] : CbTable Nat) = (false, none, []) :=
  ⟨by decide, by decide, claim_C7_truncated_trigger cpA cpA [] 0 (by decide) (by decide)⟩

theorem rfindNl_lt_length (l : Str) (i : Nat) (h : rfindNl l = some i) :
    i < l.length := by
  induction l generalizing i with
  | nil => simp [rfindNl] at h
  | cons c rest ih =>
    cases hr : rfindNl rest with
    | some j =>
      simp only [rfindNl, hr] at h
      cases h
      simpa [Nat.succ_lt_succ_iff] using ih j hr
    | none =>
      simp only [rfindNl, hr] at h
      by_cases hc : c = nl
      · simp only [hc, if_pos] at h; cases h; simp
      · simp [hc] at h

/-! #### Lemmas about the `print_lines` pipeline -/
theorem replaceNlNl_length_le (l : Str) : (replaceNlNl l).length ≤ l.length := by
  induction l using replaceNlNl.induct with
  | case1 c1 c2 rest h ih => simp [replaceNlNl, h]; omega
  | case2 c1 c2 rest h ih => simp [replaceNlNl, h] at *; omega
  | case3 l h => simp [replaceNlNl]

theorem replaceNlNl_eq_of_length (l : Str)
    (h : (replaceNlNl l).length = l.length) : replaceNlNl l = l := by
  induction l using replaceNlNl.induct with
  | case1 c1 c2 rest hc ih =>
    exfalso
    have hle := replaceNlNl_length_le rest
    simp [replaceNlNl, hc] at h
    omega
  | case2 c1 c2 rest hc ih =>
    simp only [replaceNlNl, hc, if_false, List.length_cons, Nat.add_right_cancel_iff] at h ⊢
    exact congrArg (c1 :: ·) (ih h)
  | case3 l h => simp [replaceNlNl]

theorem squeeze_replaceNlNl (l : Str) :
    ∀ flag, squeeze flag (replaceNlNl l) = squeeze flag l := by
  induction l using replaceNlNl.induct with
  | case1 c1 c2 rest hc ih =>
    intro flag
    obtain ⟨rfl, rfl⟩ := hc
    simp only [replaceNlNl, if_pos (And.intro rfl rfl)]
    cases flag <;> simp [squeeze, ih]
  | case2 c1 c2 rest hc ih =>
    intro flag
    have hl : replaceNlNl (c1 :: c2 :: rest) = c1 :: replaceNlNl (c2 :: rest) := by
      simp [replaceNlNl, hc]
    rw [hl]
    by_cases h1 : c1 = nl
    · have h2 : ¬ c2 = nl := fun h2 => hc ⟨h1, h2⟩
      subst h1
      have e1 : ∀ x, squeeze flag (nl :: x) = squeeze true x ∨
          squeeze flag (nl :: x) = nl :: squeeze true x := by
        intro x
        cases flag <;> simp [squeeze]
      cases flag <;> simp [squeeze, ih]
    · have e2 : squeeze flag (c1 :: replaceNlNl (c2 :: rest))
          = c1 :: squeeze false (replaceNlNl (c2 :: rest)) := by
        cases flag <;> simp [squeeze, h1]
      have e3 : squeeze flag (c1 :: c2 :: rest) = c1 :: squeeze false (c2 :: rest) := by
        cases flag <;> simp [squeeze, h1]
      rw [e2, e3, ih false]
  | case3 l h => intro flag; simp [replaceNlNl]

theorem squeeze_id_of_replace_fix (l : Str) (h : replaceNlNl l = l) :
    squeeze false l = l := by
  induction l using replaceNlNl.induct with
  | case1 c1 c2 rest hc ih =>
    exfalso
    obtain ⟨rfl, rfl⟩ := hc
    have hle := replaceNlNl_length_le rest
    have := congrArg List.length h
    simp [replaceNlNl] at this
    omega
  | case2 c1 c2 rest hc ih =>
    have hl : replaceNlNl (c1 :: c2 :: rest) = c1 :: replaceNlNl (c2 :: rest) := by
      simp [replaceNlNl, hc]
    rw [hl] at h
    have h' : replaceNlNl (c2 :: rest) = c2 :: rest := by
      injection h
    have hrest := ih h'
    by_cases h1 : c1 = nl
    · have h2 : ¬ c2 = nl := fun h2 => hc ⟨h1, h2⟩
      subst h1
      have hr2 : squeeze false rest = rest := by
        have h3 : c2 :: squeeze false rest = c2 :: rest := by
          simpa [squeeze, h2] using hrest
        injection h3
      simp [squeeze, h2, hr2]
    · have e : squeeze false (c1 :: c2 :: rest) = c1 :: squeeze false (c2 :: rest) := by
        simp [squeeze, h1]
      rw [e, hrest]
  | case3 l h2 =>
    cases l with
    | nil => rfl
    | cons c l2 =>
      cases l2 with
      | nil => by_cases h1 : c = nl <;> simp [squeeze, h1]
      | cons c2 rest => exact absurd rfl (h2 c c2 rest)

theorem collapseLoopAux_eq_squeeze (fuel : Nat) (l : Str) (h : l.length < fuel) :
    collapseLoopAux fuel l = squeeze false l := by
  induction fuel generalizing l with
  | zero => omega
  | succ fuel ih =>
    show (let r := replaceNlNl l
      if r.length = l.length then l else collapseLoopAux fuel r) = squeeze false l
    by_cases he : (replaceNlNl l).length = l.length
    · simp only [he, if_pos]
      exact (squeeze_id_of_replace_fix l (replaceNlNl_eq_of_length l he)).symm
    · simp only [he, if_false]
      have hlt : (replaceNlNl l).length < l.length :=
        Nat.lt_of_le_of_ne (replaceNlNl_length_le l) he
      rw [ih (replaceNlNl l) (by omega)]
      exact squeeze_replaceNlNl l false

theorem collapseLoop_eq_squeeze (l : Str) : collapseLoop l = squeeze false l :=
  collapseLoopAux_eq_squeeze (l.length + 1) l (Nat.lt_succ_self _)

theorem dropNl_cons_nl (l : Str) : dropNl (nl :: l) = dropNl l := by
  simp [dropNl, List.dropWhile_cons]

theorem dropNl_cons_ne (c : Char) (l : Str) (h : ¬ c = nl) :
    dropNl (c :: l) = c :: l := by
  simp [dropNl, List.dropWhile_cons, h]

theorem dropNl_eq_nil_iff (l : Str) : dropNl l = [] ↔ ∀ c ∈ l, c = nl := by
  simp [dropNl, List.dropWhile_eq_nil_iff]

theorem dropNl_nlfree (l : Str) (h : nl ∉ l) : dropNl l = l := by
  cases l with
  | nil => rfl
  | cons c rest =>
    exact dropNl_cons_ne c rest (fun hc => h (by rw [hc]; exact List.mem_cons_self _ _))

theorem dropNl_append (x y : Str) :
    dropNl (x ++ y) = if dropNl x = [] then dropNl y else dropNl x ++ y := by
  unfold dropNl
  rw [List.dropWhile_append]
  by_cases h : List.dropWhile (· == nl) x = []
  · simp [h]
  · simp only [h, if_neg]
    rw [if_neg (by simpa [List.isEmpty_iff] using h)]
    simp [List.isEmpty_iff, h]

theorem mem_dropNl_of_ne (l : Str) (c : Char) (hc : c ∈ l) (hne : ¬ c = nl) :
    c ∈ dropNl l := by
  induction l with
  | nil => cases hc
  | cons a rest ih =>
    by_cases ha : a = nl
    · subst ha
      rw [dropNl_cons_nl]
      rcases List.mem_cons.mp hc with h | h
      · exact absurd h hne
      · exact ih h
    · rw [dropNl_cons_ne a rest ha]
      exact hc

theorem stripTrailNl_eq_nil_iff (l : Str) :
    stripTrailNl l = [] ↔ ∀ c ∈ l, c = nl := by
  unfold stripTrailNl
  rw [List.reverse_eq_nil_iff, List.dropWhile_eq_nil_iff]
  simp

theorem stripTrailNl_nlfree (l : Str) (h : nl ∉ l) : stripTrailNl l = l := by
  cases hrev : l.reverse with
  | nil =>
    have hl : l = [] := by simpa using congrArg List.reverse hrev
    simp [stripTrailNl, hl]
  | cons c cs =>
    have hcmem : c ∈ l := by
      have : c ∈ l.reverse := by rw [hrev]; exact List.mem_cons_self c cs
      simpa using this
    have hcnl : ¬ ((c == nl) = true) := by
      simp only [beq_iff_eq]
      exact fun hh => h (hh ▸ hcmem)
    unfold stripTrailNl
    rw [hrev, List.dropWhile_cons, if_neg hcnl, ← hrev, List.reverse_reverse]

theorem stripTrailNl_single_nl : stripTrailNl [nl] = [] := by decide

theorem stripTrailNl_append (x y : Str) :
    stripTrailNl (x ++ y) =
      if stripTrailNl y = [] then stripTrailNl x else x ++ stripTrailNl y := by
  unfold stripTrailNl
  rw [List.reverse_append, List.dropWhile_append]
  by_cases h : List.dropWhile (· == nl) y.reverse = []
  · rw [if_pos (by simpa [List.isEmpty_iff] using h)]
    rw [if_pos (by simpa using h)]
  · rw [if_neg (by simpa [List.isEmpty_iff] using h)]
    rw [if_neg (by simpa using h)]
    rw [List.reverse_append, List.reverse_reverse]

theorem stripNl_cons_nl (t : Str) : stripNl (nl :: t) = stripNl t := by
  unfold stripNl
  rw [dropNl_cons_nl]

theorem stripNl_append_nl (t : Str) : stripNl (t ++ [nl]) = stripNl t := by
  unfold stripNl
  rw [dropNl_append]
  by_cases h : dropNl t = []
  · rw [if_pos h, h]
    show stripTrailNl (dropNl [nl]) = stripTrailNl []
    rw [show dropNl [nl] = dropNl [] from dropNl_cons_nl []]
    rfl
  · rw [if_neg h, stripTrailNl_append, if_pos stripTrailNl_single_nl]

theorem stripNl_eq_nil_iff (l : Str) : stripNl l = [] ↔ ∀ c ∈ l, c = nl := by
  unfold stripNl
  rw [stripTrailNl_eq_nil_iff]
  constructor
  · intro h c hc
    by_cases hcnl : c = nl
    · exact hcnl
    · exact absurd (h c (mem_dropNl_of_ne l c hc hcnl)) hcnl
  · intro h c hc
    exact h c ((List.dropWhile_sublist _).subset hc)

theorem squeeze_cons_ne (flag : Bool) (c : Char) (l : Str) (h : ¬ c = nl) :
    squeeze flag (c :: l) = c :: squeeze false l := by
  cases flag <;> simp [squeeze, h]

theorem squeeze_cons_nl_false (l : Str) :
    squeeze false (nl :: l) = nl :: squeeze true l := by
  simp [squeeze]

theorem squeeze_cons_nl_true (l : Str) : squeeze true (nl :: l) = squeeze true l := by
  simp [squeeze]

theorem squeeze_append_nlfree :
    ∀ (b : Str), nl ∉ b → b ≠ [] → ∀ (flag : Bool) (v : Str),
      squeeze flag (b ++ v) = b ++ squeeze false v := by
  intro b
  induction b with
  | nil => intro _ h; exact absurd rfl h
  | cons c bs ih =>
    intro hb _ flag v
    have hc : ¬ c = nl := fun h => hb (by rw [h]; exact List.mem_cons_self _ _)
    have hbs : nl ∉ bs := fun h => hb (List.mem_cons_of_mem c h)
    rw [List.cons_append, squeeze_cons_ne flag c _ hc]
    cases hb0 : bs with
    | nil => subst hb0; simp
    | cons c2 bs2 =>
      subst hb0
      rw [ih hbs (List.cons_ne_nil _ _) false v]
      simp

theorem squeeze_nlfree (b : Str) (hb : nl ∉ b) (flag : Bool) : squeeze flag b = b := by
  cases b with
  | nil => rfl
  | cons c bs =>
    have := squeeze_append_nlfree (c :: bs) hb (List.cons_ne_nil _ _) flag []
    simpa [squeeze] using this

theorem squeeze_true_eq_dropNl (v : Str) : squeeze true v = squeeze false (dropNl v) := by
  induction v with
  | nil => rfl
  | cons c rest ih =>
    by_cases hc : c = nl
    · subst hc
      rw [squeeze_cons_nl_true, dropNl_cons_nl, ih]
    · rw [squeeze_cons_ne true c rest hc, dropNl_cons_ne c rest hc,
        squeeze_cons_ne false c rest hc]

theorem dropNl_stripTrailNl_comm (t : Str) :
    dropNl (stripTrailNl t) = stripTrailNl (dropNl t) := by
  induction t with
  | nil => rfl
  | cons c t' ih =>
    by_cases hc : c = nl
    · subst hc
      by_cases h0 : stripTrailNl t' = []
      · have hall : ∀ x ∈ t', x = nl := (stripTrailNl_eq_nil_iff t').mp h0
        have h1 : stripTrailNl (nl :: t') = [] := by
          rw [stripTrailNl_eq_nil_iff]
          intro x hx
          rcases List.mem_cons.mp hx with h | h
          · exact h
          · exact hall x h
        have h2 : dropNl t' = [] := (dropNl_eq_nil_iff t').mpr hall
        rw [h1, dropNl_cons_nl, h2]
        rfl
      · have h1 : stripTrailNl (nl :: t') = nl :: stripTrailNl t' := by
          have h := stripTrailNl_append [nl] t'
          rw [if_neg h0] at h
          simpa using h
        rw [h1, dropNl_cons_nl, dropNl_cons_nl, ih]
    · have hsc : stripTrailNl [c] = [c] :=
        stripTrailNl_nlfree [c] (by simpa using fun h => hc h.symm)
      by_cases h0 : stripTrailNl t' = []
      · have h1 : stripTrailNl (c :: t') = [c] := by
          have h := stripTrailNl_append [c] t'
          rw [if_pos h0, hsc] at h
          simpa using h
        rw [h1, dropNl_cons_ne c [] hc, dropNl_cons_ne c t' hc, h1]
      · have h1 : stripTrailNl (c :: t') = c :: stripTrailNl t' := by
          have h := stripTrailNl_append [c] t'
          rw [if_neg h0] at h
          simpa using h
        rw [h1, dropNl_cons_ne _ _ hc, dropNl_cons_ne c t' hc, h1]

theorem replaceNlWith_cons_nl (pfx v : Str) :
    replaceNlWith pfx (nl :: v) = nl :: (pfx ++ replaceNlWith pfx v) := by
  simp [replaceNlWith]

theorem replaceNlWith_append_nlfree (pfx b v : Str) (hb : nl ∉ b) :
    replaceNlWith pfx (b ++ v) = b ++ replaceNlWith pfx v := by
  induction b with
  | nil => rfl
  | cons c bs ih =>
    have hc : ¬ c = nl := fun h => hb (by rw [h]; exact List.mem_cons_self _ _)
    have hbs : nl ∉ bs := fun h => hb (List.mem_cons_of_mem c h)
    rw [List.cons_append]
    rw [show replaceNlWith pfx (c :: (bs ++ v)) =
        c :: replaceNlWith pfx (bs ++ v) from by simp [replaceNlWith, hc]]
    rw [ih hbs, List.cons_append]

theorem replaceNlWith_nlfree (pfx b : Str) (hb : nl ∉ b) :
    replaceNlWith pfx b = b := by
  have := replaceNlWith_append_nlfree pfx b [] hb
  simpa [replaceNlWith] using this

theorem printLinesOut_eq (mdnl : Nat) (name l0 : Str) :
    printLinesOut mdnl name l0 =
      if squeeze false (stripNl l0) = [] then []
      else mkPfx mdnl name ++
        replaceNlWith (mkPfx mdnl name) (squeeze false (stripNl l0)) ++ [nl] := by
  simp only [printLinesOut, collapseLoop_eq_squeeze]

theorem printLinesOut_cons_nl (mdnl : Nat) (name t : Str) :
    printLinesOut mdnl name (nl :: t) = printLinesOut mdnl name t := by
  simp only [printLinesOut, stripNl_cons_nl]

theorem printLinesOut_append_nl (mdnl : Nat) (name t : Str) :
    printLinesOut mdnl name (t ++ [nl]) = printLinesOut mdnl name t := by
  simp only [printLinesOut, stripNl_append_nl]

theorem printLinesOut_nlfree (mdnl : Nat) (name b : Str) (hb : nl ∉ b) :
    printLinesOut mdnl name b = emitOne (mkPfx mdnl name) b := by
  have h1 : stripNl b = b := by
    unfold stripNl
    rw [dropNl_nlfree b hb, stripTrailNl_nlfree b hb]
  rw [printLinesOut_eq, h1, squeeze_nlfree b hb false]
  unfold emitOne
  by_cases h : b = []
  · simp [h]
  · rw [if_neg h, if_neg h, replaceNlWith_nlfree _ b hb]

/-- The key structural law of `print_lines`: a leading complete line
`b ++ "\n"` (with `b` newline-free) contributes exactly `emitOne b` to the
output, independently of the rest of the text. -/
theorem printLinesOut_body_append (mdnl : Nat) (name b t : Str) (hb : nl ∉ b) :
    printLinesOut mdnl name (b ++ nl :: t) =
      emitOne (mkPfx mdnl name) b ++ printLinesOut mdnl name t := by
  cases hbe : b with
  | nil =>
    simp only [List.nil_append]
    rw [printLinesOut_cons_nl]
    simp [emitOne]
  | cons c bs =>
    subst hbe
    have hc : ¬ c = nl := fun h => hb (by rw [h]; exact List.mem_cons_self _ _)
    have hbne : (c :: bs) ≠ [] := List.cons_ne_nil _ _
    have hstrip : stripNl ((c :: bs) ++ nl :: t) = stripTrailNl ((c :: bs) ++ nl :: t) := by
      unfold stripNl
      rw [List.cons_append, dropNl_cons_ne c _ hc, ← List.cons_append]
    by_cases hA : stripTrailNl (nl :: t) = []
    · have hallt : ∀ x ∈ t, x = nl := by
        have hall := (stripTrailNl_eq_nil_iff (nl :: t)).mp hA
        intro x hx
        exact hall x (List.mem_cons_of_mem nl hx)
      have hPt : printLinesOut mdnl name t = [] := by
        rw [printLinesOut_eq]
        rw [(stripNl_eq_nil_iff t).mpr hallt]
        simp [squeeze]
      have hstrip2 : stripTrailNl ((c :: bs) ++ nl :: t) = c :: bs := by
        rw [stripTrailNl_append, if_pos hA, stripTrailNl_nlfree _ hb]
      rw [printLinesOut_eq, hstrip, hstrip2, squeeze_nlfree _ hb false, hPt]
      rw [if_neg hbne]
      rw [replaceNlWith_nlfree _ _ hb]
      simp [emitOne, hbne]
    · have hBt : stripTrailNl t ≠ [] := by
        intro h0
        apply hA
        have h := stripTrailNl_append [nl] t
        rw [if_pos h0, stripTrailNl_single_nl] at h
        simpa using h
      have hsplit : stripTrailNl (nl :: t) = nl :: stripTrailNl t := by
        have h := stripTrailNl_append [nl] t
        rw [if_neg hBt] at h
        simpa using h
      have hstrip2 : stripTrailNl ((c :: bs) ++ nl :: t)
          = (c :: bs) ++ nl :: stripTrailNl t := by
        rw [stripTrailNl_append, if_neg (by rw [hsplit]; exact List.cons_ne_nil _ _),
          hsplit]
      have hsq : squeeze false ((c :: bs) ++ nl :: stripTrailNl t)
          = (c :: bs) ++ nl :: squeeze false (stripNl t) := by
        rw [squeeze_append_nlfree (c :: bs) hb hbne false]
        rw [squeeze_cons_nl_false, squeeze_true_eq_dropNl, dropNl_stripTrailNl_comm]
        rfl
      have hsnt : stripNl t ≠ [] := by
        intro h0
        apply hBt
        rw [stripTrailNl_eq_nil_iff]
        exact (stripNl_eq_nil_iff t).mp h0
      have hsq_ne : squeeze false (stripNl t) ≠ [] := by
        cases hst : stripNl t with
        | nil => exact absurd hst hsnt
        | cons a as => by_cases ha : a = nl <;> simp [squeeze, ha]
      rw [printLinesOut_eq, hstrip, hstrip2, hsq]
      rw [printLinesOut_eq mdnl name t]
      rw [if_neg (by simp), if_neg hsq_ne]
      rw [replaceNlWith_append_nlfree _ _ _ hb, replaceNlWith_cons_nl]
      simp [emitOne, hbne, List.append_assoc]

theorem squeeze_false_ne_nil (l : Str) (h : l ≠ []) : squeeze false l ≠ [] := by
  cases l with
  | nil => exact absurd rfl h
  | cons a as => by_cases ha : a = nl <;> simp [squeeze, ha]

theorem splitOnNl_ne_nil (s : Str) : splitOnNl s ≠ [] := by
  cases s with
  | nil => simp [splitOnNl]
  | cons c r =>
    by_cases hc : c = nl
    · simp [splitOnNl, hc]
    · simp only [splitOnNl, hc, if_false]
      cases splitOnNl r <;> simp

theorem replaceNlWith_eq_splitJoin (pfx : Str) : ∀ s : Str,
    pfx ++ replaceNlWith pfx s ++ [nl] =
      ((splitOnNl s).map (fun l => pfx ++ l ++ [nl])).flatten := by
  intro s
  induction s with
  | nil => simp [splitOnNl, replaceNlWith]
  | cons c r ih =>
    by_cases hc : c = nl
    · subst hc
      rw [replaceNlWith_cons_nl]
      rw [show splitOnNl (nl :: r) = [] :: splitOnNl r from by simp [splitOnNl]]
      simp only [List.map_cons, List.flatten_cons, ← ih]
      simp [List.append_assoc]
    · cases hsp : splitOnNl r with
      | nil => exact absurd hsp (splitOnNl_ne_nil r)
      | cons h t2 =>
        rw [show splitOnNl (c :: r) = (c :: h) :: t2 from by simp [splitOnNl, hc, hsp]]
        rw [show replaceNlWith pfx (c :: r) = c :: replaceNlWith pfx r from by
          simp [replaceNlWith, hc]]
        rw [hsp] at ih
        simp only [List.map_cons, List.flatten_cons] at ih ⊢
        have key : replaceNlWith pfx r ++ [nl] =
            h ++ ([nl] ++ (t2.map (fun l => pfx ++ (l ++ [nl]))).flatten) := by
          have h2 := ih
          simp only [List.append_assoc] at h2
          exact List.append_cancel_left h2
        simp only [List.append_assoc, List.cons_append]
        rw [key]
        simp [List.append_assoc]

/-- C5, as stated, is false on the code: `lines.strip('\n')` removes every
leading (and trailing) newline, not "only a trailing newline".  On the input
`"\nx"` with display name `"h"` and maximum name length 1, the code prints
`"h: x\n"` while the claim's pipeline would print `"h: \nh: x\n"`. -/
theorem claim_C5_counterexample :
    printLinesOut 1 ['h'] [nl, 'x'] ≠ printLinesClaimC5 1 ['h'] [nl, 'x'] := by
  decide

/-- C5 (amended): `print_lines` strips all leading and trailing newlines (not
only one trailing newline), collapses runs of blank lines to single newlines
until a fixpoint, emits each remaining line prefixed by
`display_name + padding + ": "`, and emits nothing when the text is empty
after stripping; in particular two inputs differing only by one trailing
newline produce identical output. -/
theorem claim_C5_amended (mdnl : Nat) (name t : Str) :
    printLinesOut mdnl name t = printLinesAmendedC5 mdnl name t ∧
    printLinesOut mdnl name (t ++ [nl]) = printLinesOut mdnl name t := by
  refine ⟨?_, printLinesOut_append_nl mdnl name t⟩
  rw [printLinesOut_eq]
  simp only [printLinesAmendedC5, collapseLoop_eq_squeeze]
  by_cases h0 : stripNl t = []
  · rw [h0]
    simp [squeeze]
  · rw [if_neg h0, if_neg (squeeze_false_ne_nil _ h0), replaceNlWith_eq_splitJoin]

/-- C6: `dispatch_write` appends and returns `True` iff
`self.active and self.enabled`; otherwise it is a no-op returning a non-true
result. -/
theorem claim_C6_dispatch_write_gating (d : RD) (buf : Str) :
    (d.active = false ∨ d.enabled = false → dispatch_write d buf = (d, false)) ∧
    (d.active = true → d.enabled = true →
      dispatch_write d buf =
        ({ d with write_buffer := d.write_buffer ++ buf }, true)) := by
  constructor
  · intro h
    unfold dispatch_write
    rw [if_neg]
    rintro ⟨h1, h2⟩
    rcases h with h | h
    · rw [h] at h1; cases h1
    · rw [h] at h2; cases h2
  · intro h1 h2
    unfold dispatch_write
    rw [if_pos ⟨h1, h2⟩]

/-- C6 witness: one enabled dispatcher accepts the bytes, one disabled
dispatcher rejects them unchanged. -/
theorem claim_C6_witness :
    dispatch_write dOn ['x'] = ({ dOn with write_buffer := ['x'] }, true) ∧
    dispatch_write dOff ['x'] = (dOff, false) := by
  constructor
  · exact (claim_C6_dispatch_write_gating dOn ['x']).2 rfl rfl
  · exact (claim_C6_dispatch_write_gating dOff ['x']).1 (Or.inr rfl)

/-- C4, as stated, is false on the code: `disconnect` never writes
`self.state`, so a dispatcher disconnected from `Running` stays `Running`
(deadness is carried by `active = False`; `get_info` even replaces the state
by `''` when inactive).  Here the call also does not raise. -/
theorem claim_C4_counterexample :
    (disconnect envNI mRun).raised = false ∧
    (disconnect envNI mRun).d.state ≠ DState.terminated := by
  decide

/-- C4 (amended): when `disconnect()` does not raise the fatal-exit signal it
leaves `active = false`, `enabled = false`, both buffers empty and the
transport pid signalled with SIGKILL — but the `state` field is left exactly
as it was, not set to Terminated. -/
theorem claim_C4_amended {α : Type} (env : Env) (m : M α)
    (hr : m.raised = false)
    (hab : ¬ (env.abort_error = true ∧ m.d.state = DState.not_started)) :
    (disconnect env m).raised = false ∧
    (disconnect env m).d.active = false ∧
    (disconnect env m).d.enabled = false ∧
    (disconnect env m).d.read_buffer = [] ∧
    (disconnect env m).d.write_buffer = [] ∧
    (disconnect env m).d.transport_killed = true ∧
    (disconnect env m).d.state = m.d.state := by
  obtain ⟨d, cbs, out, events, deltas, raised⟩ := m
  obtain ⟨ac, en, st, rb, wb, rs, dn, istr, isent, tk⟩ := d
  simp only at hr hab
  subst hr
  by_cases hi : env.interactive = true <;>
    by_cases hrs : rs = ([] : Str) <;>
      simp [disconnect, set_enabled, printLinesM, hi, hrs, hab]

/-- C4 witness: the amended disconnect postcondition at a running concrete
dispatcher. -/
theorem claim_C4_witness :
    mRun.raised = false ∧
    ¬ (envNI.abort_error = true ∧ mRun.d.state = DState.not_started) ∧
    ((disconnect envNI mRun).raised = false ∧
     (disconnect envNI mRun).d.active = false ∧
     (disconnect envNI mRun).d.enabled = false ∧
     (disconnect envNI mRun).d.read_buffer = [] ∧
     (disconnect envNI mRun).d.write_buffer = [] ∧
     (disconnect envNI mRun).d.transport_killed = true ∧
     (disconnect envNI mRun).d.state = mRun.d.state) :=
  ⟨rfl, by decide, claim_C4_amended envNI mRun rfl (by decide)⟩

/-- C9, as stated, is false on the code: in interactive mode every
`disconnect()` calls `set_enabled(False)`, which reports
`-len(display_name)` to `update_max_display_name_length` again, so the
second call changes the cumulative registry bookkeeping. -/
theorem claim_C9_counterexample :
    (disconnect envI (disconnect envI mRun)).deltas ≠
      (disconnect envI mRun).deltas := by
  decide

/-- C9 (amended): a second `disconnect()` leaves every dispatcher field, the
operator output, the callback table, the recorded invocations and the raise
flag unchanged; in non-interactive mode the registry bookkeeping is also
unchanged, but in interactive mode the call re-applies the
`-len(display_name)` delta, so the cumulative bookkeeping differs. -/
theorem claim_C9_amended {α : Type} (env : Env) (m : M α)
    (hr : m.raised = false)
    (hab : ¬ (env.abort_error = true ∧ m.d.state = DState.not_started)) :
    (disconnect env (disconnect env m)).d = (disconnect env m).d ∧
    (disconnect env (disconnect env m)).out = (disconnect env m).out ∧
    (disconnect env (disconnect env m)).raised = (disconnect env m).raised ∧
    (disconnect env (disconnect env m)).cbs = (disconnect env m).cbs ∧
    (disconnect env (disconnect env m)).events = (disconnect env m).events ∧
    (env.interactive = false →
      (disconnect env (disconnect env m)).deltas = (disconnect env m).deltas) ∧
    (env.interactive = true →
      (disconnect env (disconnect env m)).deltas =
        (disconnect env m).deltas ++ [-(m.d.display_name.length : Int)]) := by
  obtain ⟨d, cbs, out, events, deltas, raised⟩ := m
  obtain ⟨ac, en, st, rb, wb, rs, dn, istr, isent, tk⟩ := d
  simp only at hr hab
  subst hr
  by_cases hi : env.interactive = true <;>
    by_cases hrs : rs = ([] : Str) <;>
      simp [disconnect, set_enabled, printLinesM, hi, hrs, hab]

/-- C9 witness: the amended idempotence statement at a concrete
non-interactive environment. -/
theorem claim_C9_witness :
    mRun.raised = false ∧
    ¬ (envNI.abort_error = true ∧ mRun.d.state = DState.not_started) ∧
    ((disconnect envNI (disconnect envNI mRun)).d = (disconnect envNI mRun).d ∧
     (disconnect envNI (disconnect envNI mRun)).out = (disconnect envNI mRun).out ∧
     (disconnect envNI (disconnect envNI mRun)).raised =
       (disconnect envNI mRun).raised ∧
     (disconnect envNI (disconnect envNI mRun)).cbs = (disconnect envNI mRun).cbs ∧
     (disconnect envNI (disconnect envNI mRun)).events =
       (disconnect envNI mRun).events ∧
     (envNI.interactive = false →
       (disconnect envNI (disconnect envNI mRun)).deltas =
         (disconnect envNI mRun).deltas) ∧
     (envNI.interactive = true →
       (disconnect envNI (disconnect envNI mRun)).deltas =
         (disconnect envNI mRun).deltas ++ [-(mRun.d.display_name.length : Int)])) :=
  ⟨rfl, by decide, claim_C9_amended envNI mRun rfl (by decide)⟩

/-- C3, intended behaviour (the source call itself raises `TypeError`; see
RESULTS): `set_prompt` registers `seen_prompt_cb` continuously under the
fresh trigger, its command line ends with the adjacent-quoted
`PS1="<prefix_half>""<suffix_half>\n"\n` assignment, and every later
occurrence of `prefix_half + suffix_half + payload` in a processed line
invokes exactly `seen_prompt_cb` while keeping the registration. -/
theorem claim_C3_set_prompt (cp r1 r2 : Str) (cbs : CbTable HandlerId)
    (h1 : r1.length = RANDOM_LENGTH) (h2 : r2.length = RANDOM_LENGTH) :
    (set_prompt cp r1 r2 cbs).2 =
      insertCb (r1 ++ ['/'] ++ (r2 ++ ['.'])) (HandlerId.seen_prompt_cb, true) cbs ∧
    ("PS1=\"".toList ++ (cp ++ (r1 ++ ['/'])) ++ "\"\"".toList ++ (r2 ++ ['.'])
        ++ [nl] ++ "\"".toList ++ [nl]) <:+ (set_prompt cp r1 r2 cbs).1 ∧
    (∀ payload : Str,
      process cp ((cp ++ (r1 ++ ['/'])) ++ ((r2 ++ ['.']) ++ payload))
          (set_prompt cp r1 r2 cbs).2 =
        (true, some (HandlerId.seen_prompt_cb, payload),
          (set_prompt cp r1 r2 cbs).2)) := by
  refine ⟨rfl, ?_, ?_⟩
  · refine ⟨"RPS1=;RPROMPT=;TERM=ansi;unset HISTFILE;".toList, ?_⟩
    simp only [set_prompt, add]
    simp only [← List.append_assoc]
    rw [show "RPS1=;RPROMPT=;TERM=ansi;unset HISTFILE;".toList ++ "PS1=\"".toList =
      "RPS1=;RPROMPT=;TERM=ansi;unset HISTFILE;PS1=\"".toList from by decide]
  · intro payload
    have hline : (cp ++ (r1 ++ ['/'])) ++ ((r2 ++ ['.']) ++ payload)
        = cp ++ ((r1 ++ ['/'] ++ (r2 ++ ['.'])) ++ payload) := by
      simp [List.append_assoc]
    have htbl : (set_prompt cp r1 r2 cbs).2 =
        insertCb (r1 ++ ['/'] ++ (r2 ++ ['.'])) (HandlerId.seen_prompt_cb, true) cbs :=
      rfl
    rw [hline, htbl, process_marker_line cp r1 r2 payload _ h1 h2, lookupCb_insert]
    simp

/-- C3 witness: the intended `set_prompt` model at concrete random strings,
with the prompt line `prefix_half ++ suffix_half ++ "\n"` firing
`seen_prompt_cb` and keeping the table. -/
theorem claim_C3_witness :
    (set_prompt cpA rB rC []).2 =
      insertCb (rB ++ ['/'] ++ (rC ++ ['.'])) (HandlerId.seen_prompt_cb, true) [] ∧
    process cpA ((cpA ++ (rB ++ ['/'])) ++ ((rC ++ ['.']) ++ [nl]))
        (set_prompt cpA rB rC []).2 =
      (true, some (HandlerId.seen_prompt_cb, [nl]), (set_prompt cpA rB rC []).2) := by
  have h := claim_C3_set_prompt cpA rB rC [] (by decide) (by decide)
  exact ⟨h.1, h.2.2 [nl]⟩

theorem process_fst_false {α : Type} (cp line : Str) (tbl : CbTable α)
    (h : ¬ (process cp line tbl).1 = true) :
    process cp line tbl = (false, none, tbl) := by
  simp only [process] at h ⊢
  cases hf : findSub cp line with
  | none => rfl
  | some start =>
    rw [hf] at h
    dsimp only at h ⊢
    split
    · rfl
    · next hlen =>
      cases hlk : lookupCb ((line.drop (start + cp.length)).take
          (RANDOM_LENGTH + 1 + RANDOM_LENGTH + 1)) tbl with
      | none => rfl
      | some v =>
        obtain ⟨f, continous⟩ := v
        exfalso
        rw [hlk, if_neg hlen] at h
        simp at h

theorem process_fst_true {α : Type} (cp line : Str) (tbl : CbTable α)
    (h : (process cp line tbl).1 = true) :
    ∃ v, (process cp line tbl).2.1 = some v := by
  simp only [process] at h ⊢
  cases hf : findSub cp line with
  | none => rw [hf] at h; simp at h
  | some start =>
    rw [hf] at h
    dsimp only at h ⊢
    by_cases hlen : ((line.drop (start + cp.length)).take
        (RANDOM_LENGTH + 1 + RANDOM_LENGTH + 1)).length ≠
          RANDOM_LENGTH + 1 + RANDOM_LENGTH + 1
    · exfalso
      rw [if_pos hlen] at h
      simp at h
    · rw [if_neg hlen]
      cases hlk : lookupCb ((line.drop (start + cp.length)).take
          (RANDOM_LENGTH + 1 + RANDOM_LENGTH + 1)) tbl with
      | none =>
        exfalso
        rw [hlk, if_neg hlen] at h
        simp at h
      | some v =>
        obtain ⟨f, continous⟩ := v
        exact ⟨_, rfl⟩

theorem disconnect_read_buffer {α : Type} (env : Env) (m : M α) :
    (disconnect env m).d.read_buffer = [] := by
  obtain ⟨d, cbs, out, events, deltas, raised⟩ := m
  obtain ⟨ac, en, st, rb, wb, rs, dn, istr, isent, tk⟩ := d
  by_cases hi : env.interactive = true <;>
    by_cases hrs : rs = ([] : Str) <;>
      by_cases hab : env.abort_error = true ∧ st = DState.not_started <;>
        simp [disconnect, set_enabled, printLinesM, hi, hrs, hab]

theorem disconnect_raised_of_false {α : Type} (env : Env) (m : M α)
    (hr : m.raised = false) (h : (disconnect env m).raised = true) :
    env.abort_error = true ∧ m.d.state = DState.not_started := by
  obtain ⟨d, cbs, out, events, deltas, raised⟩ := m
  obtain ⟨ac, en, st, rb, wb, rs, dn, istr, isent, tk⟩ := d
  simp only at hr
  subst hr
  by_cases hab : env.abort_error = true ∧ st = DState.not_started
  · exact hab
  · exfalso
    revert h
    by_cases hi : env.interactive = true <;>
      by_cases hrs : rs = ([] : Str) <;>
        simp [disconnect, set_enabled, printLinesM, hi, hrs, hab]

/-- When the loop body ends up with the raise flag set, the read buffer was
cleared by the `disconnect` that raised (hypothesis `hh`: the source's
handlers raise only from inside `disconnect`, which empties the buffer). -/
theorem handle_line_raised {α : Type} (env : Env) (hcb : α → Str → M α → M α)
    (line : Str) (m : M α)
    (hh : ∀ f p mm, (hcb f p mm).raised = true →
      mm.raised = true ∨ (hcb f p mm).d.read_buffer = [])
    (hr : m.raised = false)
    (h3 : (handle_line env hcb line m).raised = true) :
    (handle_line env hcb line m).d.read_buffer = [] := by
  by_cases hp : (process env.cp line m.cbs).1 = true
  · obtain ⟨⟨f, payload⟩, hv⟩ := process_fst_true env.cp line m.cbs hp
    simp only [handle_line, hv, hp, if_pos] at h3 ⊢
    rcases hh f payload _ h3 with hcontra | hbuf
    · simp [hr] at hcontra
    · exact hbuf
  · have hfe := process_fst_false env.cp line m.cbs hp
    simp only [handle_line, hfe, Option.toList_none, List.append_nil,
      Bool.false_eq_true, if_false] at h3 ⊢
    by_cases hs1 : m.d.state = DState.idle ∨ m.d.state = DState.running
    · rw [if_pos hs1] at h3
      simp [printLinesM, hr] at h3
    · rw [if_neg hs1] at h3 ⊢
      by_cases hs2 : m.d.state = DState.not_started
      · rw [if_pos hs2] at h3 ⊢
        by_cases ha : containsSub AUTH_SUB line = true
        · rw [if_pos ha] at h3 ⊢
          split at h3
          · next hrz =>
            rw [if_pos hrz]
            exact disconnect_read_buffer env _
          · next hrz =>
            rw [if_neg hrz]
            simp only [printLinesM] at h3
            exact absurd h3 hrz
        · rw [if_neg ha] at h3 ⊢
          by_cases hc : containsSub CHANGED_SUB line = true
          · rw [if_pos hc] at h3
            simp [printLinesM, hr] at h3
          · rw [if_neg hc] at h3
            simp [hr] at h3
      · rw [if_neg hs2] at h3
        simp [hr] at h3

theorem handle_read_fast_case_noNl {α : Type} (env : Env) (data : Str)
    (m m1 : M α) (h : handle_read_fast_case env data m = some m1) :
    nl ∉ m1.d.read_buffer := by
  unfold handle_read_fast_case at h
  split at h
  · cases h
  · cases hrf : rfindNl data with
    | none => rw [hrf] at h; cases h
    | some last_nl =>
      rw [hrf] at h
      simp only [Option.some.injEq] at h
      subst h
      simpa [printLinesM] using rfindNl_drop data last_nl hrf

/-- Invariant of the per-line loop: however it returns, the final read buffer
holds no newline (the initial `lf` must be honest: `none` only when the
buffer is newline-free, which is how both call sites produce it). -/
theorem slow_loop_noNl {α : Type} (env : Env) (hcb : α → Str → M α → M α)
    (useFast : Bool)
    (hh : ∀ f p mm, (hcb f p mm).raised = true →
      mm.raised = true ∨ (hcb f p mm).d.read_buffer = []) :
    ∀ (fuel : Nat) (lf : Option Nat) (m m' : M α) (e : Bool),
      slow_loop env hcb useFast fuel lf m = some (m', e) →
      m.raised = false →
      (lf = none → nl ∉ m.d.read_buffer) →
      nl ∉ m'.d.read_buffer := by
  intro fuel
  induction fuel with
  | zero =>
    intro lf m m' e hsl hr hlf
    cases lf with
    | none =>
      simp only [slow_loop, Option.some.injEq, Prod.mk.injEq] at hsl
      rw [← hsl.1]
      exact hlf rfl
    | some lf0 => simp [slow_loop] at hsl
  | succ fuel ih =>
    intro lf m m' e hsl hr hlf
    cases lf with
    | none =>
      simp only [slow_loop, Option.some.injEq, Prod.mk.injEq] at hsl
      rw [← hsl.1]
      exact hlf rfl
    | some lf0 =>
      rw [slow_loop] at hsl
      set m3 := handle_line env hcb (m.d.read_buffer.take (lf0 + 1)) m with hm3
      by_cases hrz : m3.raised = true
      · rw [if_pos hrz] at hsl
        simp only [Option.some.injEq, Prod.mk.injEq] at hsl
        rw [← hsl.1]
        exact fun hmem => by
          rw [handle_line_raised env hcb _ m hh hr hrz] at hmem
          cases hmem
      · rw [if_neg hrz] at hsl
        cases useFast with
        | false =>
          exact ih _ _ m' e hsl (by simpa using hrz)
            (fun hn => (findNl_eq_none_iff _).mp hn)
        | true =>
          rw [if_pos rfl] at hsl
          split at hsl
          · next m5 heq =>
            simp only [Option.some.injEq, Prod.mk.injEq] at hsl
            rw [← hsl.1]
            exact handle_read_fast_case_noNl env _ _ m5 heq
          · next heq =>
            exact ih _ _ m' e hsl (by simpa using hrz)
              (fun hn => (findNl_eq_none_iff _).mp hn)

theorem findNl_append_of_noNl (a b : Str) (ha : nl ∉ a) :
    findNl (a ++ b) = (findNl b).map (· + a.length) := by
  induction a with
  | nil =>
    simp only [List.nil_append, List.length_nil]
    cases findNl b <;> simp
  | cons c a' ih =>
    have hc : ¬ c = nl := fun h => ha (by rw [h]; exact List.mem_cons_self _ _)
    have ha' : nl ∉ a' := fun h => ha (List.mem_cons_of_mem c h)
    rw [List.cons_append, findNl, if_neg hc, ih ha']
    cases findNl b <;> simp
    omega

theorem dispatch_write_read_buffer (d : RD) (buf : Str) :
    (dispatch_write d buf).1.read_buffer = d.read_buffer := by
  unfold dispatch_write
  split <;> rfl

/-- C10: newline-free residue invariant.  If a dispatcher enters `handle_read`
with a newline-free `read_buffer` (the invariant), then (i) the offset
optimization at the start of the slow path is sound — searching `'\n'` only in
`new_data` and offsetting by the old buffer length finds the first newline of
the whole buffer — and (ii) whenever `handle_read` returns, the resulting
`read_buffer` again contains no newline byte.  The hypothesis `hh` states the
property of the source's handlers that the only raise (`asyncore.ExitNow`)
happens inside `disconnect`, which has already cleared the buffer. -/
theorem claim_C10_residue_invariant {α : Type} (env : Env)
    (hcb : α → Str → M α → M α) (fuel : Nat) (new_data : Str) (m : M α)
    (hh : ∀ f p mm, (hcb f p mm).raised = true →
      mm.raised = true ∨ (hcb f p mm).d.read_buffer = [])
    (hr : m.raised = false)
    (hpre : nl ∉ m.d.read_buffer) :
    (findNl new_data).map (· + m.d.read_buffer.length)
        = findNl (m.d.read_buffer ++ new_data) ∧
    (∀ m', handle_read env hcb fuel new_data m = some m' →
      nl ∉ m'.d.read_buffer) := by
  constructor
  · exact (findNl_append_of_noNl m.d.read_buffer new_data hpre).symm
  · intro m' hm'
    unfold handle_read at hm'
    split at hm'
    · cases hm'
      exact hpre
    · dsimp only at hm'
      split at hm'
      · next m1 hfc =>
        cases hm'
        exact handle_read_fast_case_noNl env _ _ _ hfc
      · next hfc =>
        split at hm'
        · cases hm'
        · next m1 early hsl =>
          have hm1 : nl ∉ m1.d.read_buffer := by
            apply slow_loop_noNl env hcb true hh fuel _ _ m1 early hsl
            · simpa using hr
            · intro hn
              have hnone : findNl new_data = none := by
                simpa using hn
              have h2 := (findNl_eq_none_iff new_data).mp hnone
              intro hmem
              rcases List.mem_append.mp (by simpa using hmem) with hx | hx
              · exact hpre hx
              · exact h2 hx
          split at hm'
          · cases hm'
            exact hm1
          · split at hm'
            · cases hm'
              simpa [dispatch_write_read_buffer] using hm1
            · cases hm'
              exact hm1

/-- C10 witness: a concrete `handle_read` of `"b\nc"` over the residue `"a"`
leaves the newline-free residue `"c"`. -/
theorem claim_C10_witness :
    nl ∉ ((handle_read envNI hcb0 3 ['b', nl, 'c'] mRun).getD mRun).d.read_buffer := by
  have h := (claim_C10_residue_invariant envNI hcb0 3 ['b', nl, 'c'] mRun
      (fun _ _ _ hx => Or.inl hx) rfl (by decide)).2
  cases hres : handle_read envNI hcb0 3 ['b', nl, 'c'] mRun with
  | none => simpa [hres] using (by decide : nl ∉ mRun.d.read_buffer)
  | some mx => simpa [hres] using h mx hres

theorem findNl_lt_length (l : Str) (i : Nat) (h : findNl l = some i) :
    i < l.length := by
  induction l generalizing i with
  | nil => simp [findNl] at h
  | cons c rest ih =>
    by_cases hc : c = nl
    · rw [findNl, if_pos hc] at h
      cases h
      simp
    · rw [findNl, if_neg hc] at h
      cases hr : findNl rest with
      | none => rw [hr] at h; cases h
      | some j =>
        rw [hr] at h
        obtain rfl : j + 1 = i := by simpa using h
        simpa [Nat.succ_lt_succ_iff] using ih j hr

theorem findSub_none_of_contains_false (pat l : Str)
    (h : containsSub pat l = false) : findSub pat l = none := by
  unfold containsSub at h
  cases hf : findSub pat l with
  | none => rfl
  | some i => rw [hf] at h; cases h

theorem rfindNl_cons_nl (t : Str) :
    rfindNl (nl :: t) =
      match rfindNl t with
      | some j => some (j + 1)
      | none => some 0 := by
  show (match rfindNl t with
        | some i => some (i + 1)
        | none => if nl = nl then some 0 else none) = _
  cases rfindNl t with
  | some j => rfl
  | none => simp

theorem nlResidue_cons (b t : Str) : nlResidue (b ++ nl :: t) = nlResidue t := by
  unfold nlResidue
  rw [rfindNl_append b (nl :: t), rfindNl_cons_nl]
  cases hrt : rfindNl t with
  | some j =>
    show (b ++ nl :: t).drop (b.length + (j + 1) + 1) = t.drop (j + 1)
    rw [show b.length + (j + 1) + 1 = b.length + (j + 2) from by omega]
    simp [List.drop_append]
  | none =>
    show (b ++ nl :: t).drop (b.length + 0 + 1) = t
    rw [show b.length + 0 + 1 = b.length + 1 from by omega]
    simp [List.drop_append]

theorem nlChunk_cons (b t : Str) :
    nlChunk (b ++ nl :: t) = (b ++ [nl]) ++ nlChunk t := by
  unfold nlChunk
  rw [rfindNl_append b (nl :: t), rfindNl_cons_nl]
  cases hrt : rfindNl t with
  | some j =>
    show (b ++ nl :: t).take (b.length + (j + 1) + 1) = (b ++ [nl]) ++ t.take (j + 1)
    rw [show b.length + (j + 1) + 1 = b.length + (j + 2) from by omega]
    simp [List.take_append]
  | none =>
    show (b ++ nl :: t).take (b.length + 0 + 1) = (b ++ [nl]) ++ []
    rw [show b.length + 0 + 1 = b.length + 1 from by omega]
    simp [List.take_append]

theorem take_rfindNl_succ (data : Str) (i : Nat) (h : rfindNl data = some i) :
    data.take (i + 1) = data.take i ++ [nl] := by
  induction data generalizing i with
  | nil => simp [rfindNl] at h
  | cons c rest ih =>
    cases hr : rfindNl rest with
    | some j =>
      rw [show rfindNl (c :: rest) =
          match rfindNl rest with
          | some i => some (i + 1)
          | none => if c = nl then some 0 else none from rfl, hr] at h
      obtain rfl : j + 1 = i := by simpa using h
      show c :: rest.take (j + 1) = (c :: rest.take j) ++ [nl]
      rw [ih j hr]
      rfl
    | none =>
      rw [show rfindNl (c :: rest) =
          match rfindNl rest with
          | some i => some (i + 1)
          | none => if c = nl then some 0 else none from rfl, hr] at h
      by_cases hc : c = nl
      · rw [if_pos hc] at h
        obtain rfl : 0 = i := by simpa using h
        simp [List.take, hc]
      · rw [if_neg hc] at h
        cases h

theorem handle_read_fast_case_none_of_state {α : Type} (env : Env) (data : Str)
    (m : M α) (h : ¬ m.d.state = DState.running) :
    handle_read_fast_case env data m = none := by
  unfold handle_read_fast_case
  rw [if_pos (Or.inl h)]

theorem dispatch_write_risns (d : RD) (buf : Str) :
    (dispatch_write d buf).1.read_in_state_not_started =
      d.read_in_state_not_started := by
  unfold dispatch_write
  split <;> rfl

/-- A line on which `process` finds no marker, handled in `idle`/`running`:
the body just prints it. -/
theorem handle_line_print {α : Type} (env : Env) (hcb : α → Str → M α → M α)
    (line : Str) (m : M α)
    (hst : m.d.state = DState.idle ∨ m.d.state = DState.running)
    (hcp : findSub env.cp line = none) :
    handle_line env hcb line m = printLinesM env line m := by
  have hpr : process env.cp line m.cbs = (false, none, m.cbs) :=
    process_of_findSub_none env.cp line m.cbs hcp
  simp only [handle_line, hpr, Option.toList_none, List.append_nil,
    Bool.false_eq_true, if_false, if_pos hst]

/-- A line on which `process` finds no marker and that contains neither
host-key substring, handled in `not_started`: the body only appends it to
`read_in_state_not_started`. -/
theorem handle_line_ns {α : Type} (env : Env) (hcb : α → Str → M α → M α)
    (line : Str) (m : M α)
    (hst : m.d.state = DState.not_started)
    (hcp : findSub env.cp line = none)
    (hauth : containsSub AUTH_SUB line = false)
    (hch : containsSub CHANGED_SUB line = false) :
    handle_line env hcb line m =
      { m with d := { m.d with read_in_state_not_started :=
          m.d.read_in_state_not_started ++ line } } := by
  have hpr : process env.cp line m.cbs = (false, none, m.cbs) :=
    process_of_findSub_none env.cp line m.cbs hcp
  have hno : ¬ (m.d.state = DState.idle ∨ m.d.state = DState.running) := by
    rw [hst]
    rintro (h | h) <;> cases h
  simp only [handle_line, hpr, Option.toList_none, List.append_nil,
    Bool.false_eq_true, if_false, if_neg hno, if_pos hst, hauth, hch]

theorem take_append_len_succ (b : Str) (c : Char) (t : Str) :
    (b ++ c :: t).take (b.length + 1) = b ++ [c] := by
  induction b with
  | nil => rfl
  | cons x bs ih => simpa [List.take] using ih

theorem drop_append_len_succ (b : Str) (c : Char) (t : Str) :
    (b ++ c :: t).drop (b.length + 1) = t := by
  induction b with
  | nil => rfl
  | cons x bs ih => simp [List.drop, ih]

theorem printLinesOut_nil (mdnl : Nat) (name : Str) :
    printLinesOut mdnl name [] = [] := by
  simpa [emitOne] using printLinesOut_nlfree mdnl name [] (by simp)

theorem printLinesOut_chunk_step (mdnl : Nat) (name b t : Str) (hb : nl ∉ b) :
    printLinesOut mdnl name (b ++ [nl]) ++ printLinesOut mdnl name (nlChunk t)
      = printLinesOut mdnl name (nlChunk (b ++ nl :: t)) := by
  rw [nlChunk_cons]
  have h1 : (b ++ [nl]) ++ nlChunk t = b ++ nl :: nlChunk t := by simp
  rw [h1, printLinesOut_body_append mdnl name b (nlChunk t) hb,
    printLinesOut_append_nl, printLinesOut_nlfree mdnl name b hb]

/-- The pure per-line slow path over a marker-free buffer in state `Running`:
it prints every complete line and keeps the trailing partial line.  (This is
the `useFast := false` counterfactual of the loop, i.e. exactly the "slow
per-line path" the fast path is compared against.) -/
theorem slow_loop_run {α : Type} (env : Env) (hcb : α → Str → M α → M α) :
    ∀ (n : Nat) (data : Str) (m : M α) (fuel : Nat),
      data.length = n →
      m.d.read_buffer = data →
      m.d.state = DState.running →
      m.raised = false →
      containsSub env.cp data = false →
      data.length ≤ fuel →
      slow_loop env hcb false fuel (findNl data) m =
        some ({ m with
          d := { m.d with read_buffer := nlResidue data },
          out := m.out ++
            printLinesOut env.mdnl m.d.display_name (nlChunk data) }, false) := by
  intro n
  induction n using Nat.strong_induction_on with
  | _ n ih =>
    intro data m fuel hlen hbuf hst hr hcp hfuel
    cases hfn : findNl data with
    | none =>
      have hnonl : nl ∉ data := (findNl_eq_none_iff data).mp hfn
      have hres : nlResidue data = data := by
        unfold nlResidue
        rw [(rfindNl_eq_none_iff data).mpr hnonl]
      have hchk : nlChunk data = [] := by
        unfold nlChunk
        rw [(rfindNl_eq_none_iff data).mpr hnonl]
      rw [hres, hchk, printLinesOut_nil]
      have hls : slow_loop env hcb false fuel (none : Option Nat) m = some (m, false) := by
        cases fuel <;> rfl
      rw [hls]
      obtain ⟨d, cbs, out, events, deltas, raised⟩ := m
      obtain ⟨ac, en, st, rb, wb, rs, dn, istr, isent, tk⟩ := d
      simp only at hbuf
      subst hbuf
      simp
    | some lf =>
      obtain ⟨hdec, hbnl⟩ := findNl_eq_some data lf hfn
      have hblen : (data.take lf).length = lf := by
        have := findNl_lt_length data lf hfn
        simp [List.length_take]
        omega
      have hline : data.take (lf + 1) = data.take lf ++ [nl] := by
        have h1 := take_append_len_succ (data.take lf) nl (data.drop (lf + 1))
        rw [hblen] at h1
        conv_lhs => rw [hdec]
        exact h1
      have hdlen : data.length = (data.take lf).length + 1 + (data.drop (lf + 1)).length := by
        have h2 := congrArg List.length hdec
        simp only [List.length_append, List.length_cons] at h2
        omega
      cases fuel with
      | zero =>
        exfalso
        omega
      | succ fu =>
        rw [slow_loop]
        rw [if_neg Bool.false_ne_true]
        have hcpl : containsSub env.cp (data.take (lf + 1)) = false :=
          containsSub_false_of_take _ _ _ hcp
        have h3 : handle_line env hcb (m.d.read_buffer.take (lf + 1)) m
            = printLinesM env (data.take lf ++ [nl]) m := by
          rw [hbuf, hline]
          refine handle_line_print env hcb _ m (Or.inr hst) ?_
          apply findSub_none_of_contains_false
          rw [← hline]
          exact hcpl
        rw [h3]
        rw [if_neg (by simp [printLinesM, hr])]
        dsimp only
        have hbuf3 : (printLinesM env (data.take lf ++ [nl]) m).d.read_buffer = data := by
          simp [printLinesM, hbuf]
        rw [hbuf3]
        have ihres := ih (data.drop (lf + 1)).length (by omega) (data.drop (lf + 1))
          ({ printLinesM env (data.take lf ++ [nl]) m with
             d := { (printLinesM env (data.take lf ++ [nl]) m).d with
               read_buffer := data.drop (lf + 1) } })
          fu rfl rfl (by exact hst) (by exact hr)
          (containsSub_false_of_drop _ _ _ hcp) (by omega)
        rw [ihres]
        obtain ⟨d, cbs, out, events, deltas, raised⟩ := m
        obtain ⟨ac, en, st, rb, wb, rs, dn, istr, isent, tk⟩ := d
        simp only [printLinesM, Option.some.injEq, Prod.mk.injEq, M.mk.injEq,
          RD.mk.injEq]
        have hres : nlResidue (data.drop (lf + 1)) = nlResidue data := by
          conv_rhs => rw [hdec]
          rw [nlResidue_cons]
        have hout : out ++ printLinesOut env.mdnl dn (data.take lf ++ [nl]) ++
              printLinesOut env.mdnl dn (nlChunk (data.drop (lf + 1)))
            = out ++ printLinesOut env.mdnl dn (nlChunk data) := by
          conv_rhs => rw [hdec]
          rw [← printLinesOut_chunk_step env.mdnl dn (data.take lf) (data.drop (lf + 1)) hbnl]
          simp [List.append_assoc]
        simp [hres, hout]

/-- C2: fast/slow path equivalence.  For every buffer satisfying the fast
path's precondition (state `Running`, `any_in` false, at least one newline),
`handle_read_fast_case` succeeds, and the `useFast := false` per-line slow
path of `handle_read` on the same buffer reaches exactly the same machine —
byte-identical operator output and the same trailing partial line left in
`read_buffer` — completing normally (early-exit flag `false`). -/
theorem claim_C2_fast_slow_equiv {α : Type} (env : Env)
    (hcb : α → Str → M α → M α) (data : Str) (m : M α) (fuel : Nat)
    (hbuf : m.d.read_buffer = data)
    (hst : m.d.state = DState.running)
    (hr : m.raised = false)
    (hcp : any_in env.cp data = false)
    (hnl : nl ∈ data)
    (hfuel : data.length ≤ fuel) :
    ∃ mf, handle_read_fast_case env data m = some mf ∧
      slow_loop env hcb false fuel (findNl data) m = some (mf, false) := by
  obtain ⟨last, hlast⟩ : ∃ i, rfindNl data = some i := by
    cases h : rfindNl data with
    | none => exact absurd hnl ((rfindNl_eq_none_iff data).mp h)
    | some i => exact ⟨i, rfl⟩
  refine ⟨printLinesM env (data.take last)
      { m with d := { m.d with read_buffer := data.drop (last + 1) } }, ?_, ?_⟩
  · unfold handle_read_fast_case
    rw [if_neg (by simp [hst, hcp])]
    rw [hlast]
  · have hrun := slow_loop_run env hcb data.length data m fuel rfl hbuf hst hr
      (by simpa [any_in, contains] using hcp) hfuel
    have hres : nlResidue data = data.drop (last + 1) := by
      unfold nlResidue
      rw [hlast]
    have hchk : nlChunk data = data.take (last + 1) := by
      unfold nlChunk
      rw [hlast]
    have hout : printLinesOut env.mdnl m.d.display_name (nlChunk data)
        = printLinesOut env.mdnl m.d.display_name (data.take last) := by
      rw [hchk, take_rfindNl_succ data last hlast, printLinesOut_append_nl]
    rw [hrun, hres]
    simp only [printLinesM, hout]

/-- C2 witness: the equivalence at the concrete buffer `"a
b"` on a running
dispatcher. -/
theorem claim_C2_witness :
    ∃ mf, handle_read_fast_case envNI ['a', nl, 'b'] mC2 = some mf ∧
      slow_loop envNI hcb0 false 3 (findNl ['a', nl, 'b']) mC2 = some (mf, false) :=
  claim_C2_fast_slow_equiv envNI hcb0 ['a', nl, 'b'] mC2 3 rfl rfl rfl
    (by decide) (by decide) (by decide)

/-- The per-line loop (as `handle_read` runs it, `useFast := true`) over a
marker-free, host-key-message-free buffer in state `NotStarted`: every
complete line is appended to `read_in_state_not_started` and the trailing
partial line is kept in `read_buffer`; nothing is printed. -/
theorem slow_loop_ns {α : Type} (env : Env) (hcb : α → Str → M α → M α) :
    ∀ (n : Nat) (data : Str) (m : M α) (fuel : Nat),
      data.length = n →
      m.d.read_buffer = data →
      m.d.state = DState.not_started →
      m.raised = false →
      containsSub env.cp data = false →
      containsSub AUTH_SUB data = false →
      containsSub CHANGED_SUB data = false →
      data.length ≤ fuel →
      slow_loop env hcb true fuel (findNl data) m =
        some ({ m with
          d := { m.d with
            read_buffer := nlResidue data,
            read_in_state_not_started :=
              m.d.read_in_state_not_started ++ nlChunk data } }, false) := by
  intro n
  induction n using Nat.strong_induction_on with
  | _ n ih =>
    intro data m fuel hlen hbuf hst hr hcp hauth hch hfuel
    cases hfn : findNl data with
    | none =>
      have hnonl : nl ∉ data := (findNl_eq_none_iff data).mp hfn
      have hres : nlResidue data = data := by
        unfold nlResidue
        rw [(rfindNl_eq_none_iff data).mpr hnonl]
      have hchk : nlChunk data = [] := by
        unfold nlChunk
        rw [(rfindNl_eq_none_iff data).mpr hnonl]
      rw [hres, hchk]
      have hls : slow_loop env hcb true fuel (none : Option Nat) m = some (m, false) := by
        cases fuel <;> rfl
      rw [hls]
      obtain ⟨d, cbs, out, events, deltas, raised⟩ := m
      obtain ⟨ac, en, st, rb, wb, rs, dn, istr, isent, tk⟩ := d
      simp only at hbuf
      subst hbuf
      simp
    | some lf =>
      obtain ⟨hdec, hbnl⟩ := findNl_eq_some data lf hfn
      have hblen : (data.take lf).length = lf := by
        have := findNl_lt_length data lf hfn
        simp [List.length_take]
        omega
      have hline : data.take (lf + 1) = data.take lf ++ [nl] := by
        have h1 := take_append_len_succ (data.take lf) nl (data.drop (lf + 1))
        rw [hblen] at h1
        conv_lhs => rw [hdec]
        exact h1
      have hdlen : data.length = (data.take lf).length + 1 + (data.drop (lf + 1)).length := by
        have h2 := congrArg List.length hdec
        simp only [List.length_append, List.length_cons] at h2
        omega
      cases fuel with
      | zero =>
        exfalso
        omega
      | succ fu =>
        rw [slow_loop]
        rw [if_pos rfl]
        have h3 : handle_line env hcb (m.d.read_buffer.take (lf + 1)) m
            = { m with d := { m.d with read_in_state_not_started :=
                m.d.read_in_state_not_started ++ data.take (lf + 1) } } := by
          rw [hbuf]
          refine handle_line_ns env hcb _ m hst ?_ ?_ ?_
          · exact findSub_none_of_contains_false _ _
              (containsSub_false_of_take _ _ _ hcp)
          · exact containsSub_false_of_take _ _ _ hauth
          · exact containsSub_false_of_take _ _ _ hch
        rw [h3]
        rw [if_neg (by simp [hr])]
        dsimp only
        rw [hbuf]
        split
        · next m5 heq =>
          rw [handle_read_fast_case_none_of_state] at heq
          · cases heq
          · simp [hst]
        · next heq =>
          have ihres := ih (data.drop (lf + 1)).length (by omega) (data.drop (lf + 1))
            ({ m with d := { m.d with
                 read_in_state_not_started :=
                   m.d.read_in_state_not_started ++ data.take (lf + 1),
                 read_buffer := data.drop (lf + 1) } })
            fu rfl rfl (by exact hst) (by exact hr)
            (containsSub_false_of_drop _ _ _ hcp)
            (containsSub_false_of_drop _ _ _ hauth)
            (containsSub_false_of_drop _ _ _ hch) (by omega)
          rw [ihres]
          obtain ⟨d, cbs, out, events, deltas, raised⟩ := m
          obtain ⟨ac, en, st, rb, wb, rs, dn, istr, isent, tk⟩ := d
          simp only [Option.some.injEq, Prod.mk.injEq, M.mk.injEq, RD.mk.injEq]
          have hres : nlResidue (data.drop (lf + 1)) = nlResidue data := by
            conv_rhs => rw [hdec]
            rw [nlResidue_cons]
          have hrs : rs ++ data.take (lf + 1) ++ nlChunk (data.drop (lf + 1))
              = rs ++ nlChunk data := by
            conv_rhs => rw [hdec]
            rw [nlChunk_cons, hline]
            simp [List.append_assoc]
          simp [hres, hrs]

/-- C8, as stated, is false: `disconnect` replays the startup buffer through
`print_lines`, which prefixes each line with the display name — on the
accumulated bytes `"x\n"` of `mNS8` the operator receives `"h: x\n"`, not
the bytes verbatim. -/
theorem claim_C8_counterexample :
    (disconnect envNI mNS8).out ≠ mNS8.out ++ mNS8.d.read_in_state_not_started := by
  decide

/-- C8 amended: (a) while `state == NotStarted`, a `handle_read` whose data
triggers no callback and no host-key diagnostic accumulates exactly the
complete lines of the buffer into `read_in_state_not_started` (the trailing
partial line stays in `read_buffer`, so not every byte read is accumulated
immediately); (b) on `disconnect` the accumulated bytes are replayed to the
operator through `print_lines` — display-name-prefixed, not verbatim — and
the accumulator is cleared. -/
theorem claim_C8_amended {α : Type} (env : Env) (hcb : α → Str → M α → M α)
    (fuel : Nat) (new_data : Str) (m : M α)
    (hact : m.d.active = true)
    (hst : m.d.state = DState.not_started)
    (hr : m.raised = false)
    (hnlb : nl ∉ m.d.read_buffer)
    (hcp : containsSub env.cp (m.d.read_buffer ++ new_data) = false)
    (hauth : containsSub AUTH_SUB (m.d.read_buffer ++ new_data) = false)
    (hch : containsSub CHANGED_SUB (m.d.read_buffer ++ new_data) = false)
    (hfuel : (m.d.read_buffer ++ new_data).length ≤ fuel) :
    (∃ m', handle_read env hcb fuel new_data m = some m' ∧
      m'.d.read_in_state_not_started =
        m.d.read_in_state_not_started ++ nlChunk (m.d.read_buffer ++ new_data) ∧
      m'.d.read_buffer = nlResidue (m.d.read_buffer ++ new_data)) ∧
    (∀ me : M α,
      (disconnect env me).d.read_in_state_not_started = [] ∧
      (disconnect env me).out = me.out ++
        (if me.d.read_in_state_not_started = [] then []
         else printLinesOut env.mdnl me.d.display_name
           me.d.read_in_state_not_started)) := by
  constructor
  · unfold handle_read
    rw [if_neg (by simp [hact])]
    dsimp only
    split
    · next m1 heq =>
      rw [handle_read_fast_case_none_of_state] at heq
      · cases heq
      · simp [hst]
    · next heq =>
      have hlf : (findNl new_data).map
          (· + ((m.d.read_buffer ++ new_data).length - new_data.length))
          = findNl (m.d.read_buffer ++ new_data) := by
        rw [findNl_append_of_noNl _ _ hnlb]
        simp [List.length_append]
      have hsl := slow_loop_ns env hcb (m.d.read_buffer ++ new_data).length
        (m.d.read_buffer ++ new_data)
        ({ m with d := { m.d with read_buffer := m.d.read_buffer ++ new_data } })
        fuel rfl rfl (by simp [hst]) (by simp [hr]) hcp hauth hch hfuel
      rw [hlf, hsl]
      dsimp only
      rw [if_neg Bool.false_ne_true]
      split
      · next hcond =>
        refine ⟨_, rfl, ?_, ?_⟩
        · simp [dispatch_write_risns]
        · simp [dispatch_write_read_buffer]
      · next hcond =>
        refine ⟨_, rfl, ?_, ?_⟩
        · simp
        · simp
  · intro me
    obtain ⟨d, cbs, out, events, deltas, raised⟩ := me
    obtain ⟨ac, en, st, rb, wb, rs, dn, istr, isent, tk⟩ := d
    by_cases hi : env.interactive = true <;>
      by_cases hrs : rs = ([] : Str) <;>
        by_cases hab : env.abort_error = true ∧ st = DState.not_started <;>
          simp [disconnect, set_enabled, printLinesM, hi, hrs, hab]

/-- C8 witness: reading `"x\n"` into a fresh `NotStarted` dispatcher
accumulates the line, and the replay equalities at that environment. -/
theorem claim_C8_witness :
    (∃ m', handle_read envNI hcb0 3 ['x', nl] mNS = some m' ∧
      m'.d.read_in_state_not_started =
        mNS.d.read_in_state_not_started ++ nlChunk (mNS.d.read_buffer ++ ['x', nl]) ∧
      m'.d.read_buffer = nlResidue (mNS.d.read_buffer ++ ['x', nl])) ∧
    (∀ me : M Nat,
      (disconnect envNI me).d.read_in_state_not_started = [] ∧
      (disconnect envNI me).out = me.out ++
        (if me.d.read_in_state_not_started = [] then []
         else printLinesOut envNI.mdnl me.d.display_name
           me.d.read_in_state_not_started)) :=
  claim_C8_amended envNI hcb0 3 ['x', nl] mNS (by decide) (by decide) (by decide)
    (by decide) (by decide) (by decide) (by decide) (by decide)

end Polysh
